import Mathlib

/-
Verification of the doubri near-duplicate detection pipeline.

This file gives a shallow embedding, in Lean 4, of the core operations of
the doubri repository (MinHash file codec, group deduplicator, k-way index
merger, flag applicator, sketcher glue) and proves or refutes the frozen
claims about them.  Every definition is translated from the C++ source
(src/minhash.hpp, src/dedup.cc, src/common.h, src/merge.cc, src/apply.cc,
src/minhash.cc); byte sequences are lists of natural numbers below 256,
machine integers are natural numbers with explicit bounds, fallible
operations return Except or Option values.
-/

namespace Doubri

/-! ## Byte-level utilities -/

/-- Big-endian byte encoding of a value in `w` bytes (the encoding used for
hash values stored in MinHash files via `bswap_64` and for the
`(g << 48) | i` field of index entries). -/
def beBytes : Nat → Nat → List Nat
  | 0, _ => []
  | w + 1, v => beBytes w (v / 256) ++ [v % 256]

/-- A slice of a byte list: `len` bytes starting at offset `off`
(model of a seek followed by a read). -/
def listSlice (l : List α) (off len : Nat) : List α :=
  (l.drop off).take len

/-- Three-way lexicographic comparison of byte lists (model of `memcmp`
on equal-length byte arrays, extended to lists of any length). -/
def byteCompare : List Nat → List Nat → Ordering
  | [], [] => .eq
  | [], _ :: _ => .lt
  | _ :: _, [] => .gt
  | a :: as, b :: bs =>
      if a < b then .lt else if b < a then .gt else byteCompare as bs

theorem length_beBytes (w v : Nat) : (beBytes w v).length = w := by
  induction w generalizing v with
  | zero => rfl
  | succ w ih => simp [beBytes, ih]

theorem byteCompare_eq_iff (x y : List Nat) : byteCompare x y = .eq ↔ x = y := by
  induction x generalizing y with
  | nil => cases y <;> simp [byteCompare]
  | cons a as ih =>
      cases y with
      | nil => simp [byteCompare]
      | cons b bs =>
          by_cases h1 : a < b
          · simp [byteCompare, h1]
            omega
          · by_cases h2 : b < a
            · simp [byteCompare, h1, h2]
              omega
            · have hab : a = b := by omega
              simp [byteCompare, h1, h2, hab, ih]

theorem byteCompare_lt_iff (x y : List Nat) :
    byteCompare x y = .lt ↔ List.Lex (· < ·) x y := by
  induction x generalizing y with
  | nil =>
      cases y with
      | nil => simp [byteCompare]
      | cons b bs =>
          simp [byteCompare]
          exact List.Lex.nil
  | cons a as ih =>
      cases y with
      | nil => simp [byteCompare]
      | cons b bs =>
          by_cases h1 : a < b
          · simp [byteCompare, h1]
            exact List.Lex.rel h1
          · by_cases h2 : b < a
            · simp [byteCompare, h1, h2]
              intro h
              cases h with
              | rel h => omega
              | cons h => omega
            · have hab : a = b := by omega
              subst hab
              simp [byteCompare, h1, h2, ih]
              constructor
              · exact fun h => List.Lex.cons h
              · intro h
                cases h with
                | rel h => omega
                | cons h => exact h

theorem byteCompare_gt_iff (x y : List Nat) :
    byteCompare x y = .gt ↔ List.Lex (· < ·) y x := by
  rw [← byteCompare_lt_iff]
  induction x generalizing y with
  | nil => cases y <;> simp [byteCompare]
  | cons a as ih =>
      cases y with
      | nil => simp [byteCompare]
      | cons b bs =>
          by_cases h1 : a < b
          · have h2 : ¬ b < a := by omega
            simp [byteCompare, h1, h2]
          · by_cases h2 : b < a
            · simp [byteCompare, h1, h2]
            · have hab : a = b := by omega
              subst hab
              simp [byteCompare, h1, h2, ih]

theorem lex_irrefl (x : List Nat) : ¬ List.Lex (· < ·) x x := by
  intro h
  induction x with
  | nil => cases h
  | cons a as ih =>
      cases h with
      | rel h => omega
      | cons h => exact ih h

theorem lex_trans {x y z : List Nat} (h1 : List.Lex (· < ·) x y)
    (h2 : List.Lex (· < ·) y z) : List.Lex (· < ·) x z := by
  induction h1 generalizing z with
  | nil =>
      cases h2 with
      | rel _ => exact List.Lex.nil
      | cons _ => exact List.Lex.nil
  | @rel a as b bs hab =>
      cases h2 with
      | rel hbc => exact List.Lex.rel (by omega)
      | cons _ => exact List.Lex.rel hab
  | @cons a as bs hasbs ih =>
      cases h2 with
      | rel hbc => exact List.Lex.rel hbc
      | cons h => exact List.Lex.cons (ih h)

theorem lex_append_of_eqlen {x y : List Nat} (u v : List Nat)
    (hlen : x.length = y.length) (h : List.Lex (· < ·) x y) :
    List.Lex (· < ·) (x ++ u) (y ++ v) := by
  induction h with
  | nil => simp at hlen
  | rel h => exact List.Lex.rel h
  | cons h ih => exact List.Lex.cons (ih (by simpa using hlen))

theorem lex_append_same {u v : List Nat} (x : List Nat)
    (h : List.Lex (· < ·) u v) : List.Lex (· < ·) (x ++ u) (x ++ v) := by
  induction x with
  | nil => simpa using h
  | cons a as ih => exact List.Lex.cons ih

/-- Big-endian encodings of the same width compare like the values. -/
theorem beBytes_lex_of_lt {w a b : Nat} (hab : a < b) (hb : b < 256 ^ w) :
    List.Lex (· < ·) (beBytes w a) (beBytes w b) := by
  induction w generalizing a b with
  | zero => simp at hb; omega
  | succ w ih =>
      have hdiv : a / 256 ≤ b / 256 := Nat.div_le_div_right (Nat.le_of_lt hab)
      rcases Nat.lt_or_ge (a / 256) (b / 256) with hlt | hge
      · have hbw : b / 256 < 256 ^ w := by
          rw [Nat.div_lt_iff_lt_mul (by norm_num)]
          calc b < 256 ^ (w + 1) := hb
          _ = 256 ^ w * 256 := by ring
        exact lex_append_of_eqlen _ _ (by simp [length_beBytes]) (ih hlt hbw)
      · have heq : a / 256 = b / 256 := by omega
        have hmod : a % 256 < b % 256 := by
          have ha := Nat.div_add_mod a 256
          have hbb := Nat.div_add_mod b 256
          omega
        rw [beBytes, beBytes, heq]
        exact lex_append_same _ (List.Lex.rel hmod)

/-! ## MinHash file codec (src/minhash.hpp)

`MinHashWriter` accumulates rows into per-band buffers of at most
`minhash_sector_size = 512` items and flushes a full sector block (all
band columns of the buffered items, band by band) when the buffer is
full; `close` flushes the tail block and patches the item count into the
header, refusing counts that do not fit the check `0xFFFFFFFF <= m_num_items`.
Hash values are stored big-endian (`bswap_64`), eight bytes each. -/

/-- The compiled-in sector size of the MinHash format. -/
def minhashSectorSize : Nat := 512

/-- A finalized MinHash file: the header parameters together with the body
bytes that follow the 32-byte header. -/
structure MinHashFile where
  numItems : Nat
  numHashValues : Nat
  hBegin : Nat
  hEnd : Nat
  body : List Nat
  deriving Repr, DecidableEq

/-- The in-memory state of `MinHashWriter`: the per-band accumulation
buffers `m_bas` (hash values, band-relative order), the number `m_i` of
buffered items, the total item count `m_num_items`, and the body bytes
written to the file so far. -/
structure WriterState where
  bas : List (List Nat)
  i : Nat
  numItems : Nat
  body : List Nat
  deriving Repr, DecidableEq

/-- The hash values of `row` that belong to band-offset `r` (relative band
`r` means absolute band `begin + r`): `put` copies values
`r*H .. r*H + H - 1` of the flat row into buffer `m_bas[r]`. -/
def bandSliceRow (hN r : Nat) (row : List Nat) : List Nat :=
  (row.drop (r * hN)).take hN

/-- `MinHashWriter::flush`: if any items are buffered, append every band
buffer (band by band, values in big-endian bytes) to the file and empty
the buffers. -/
def wFlush (hR : Nat) (st : WriterState) : WriterState :=
  if 0 < st.i then
    { bas := List.replicate hR []
      i := 0
      numItems := st.numItems
      body := st.body ++ st.bas.flatMap (fun ba => ba.flatMap (beBytes 8)) }
  else st

/-- The buffer-append phase of `MinHashWriter::put`: append the row's
values for each band to that band's buffer and count the item. -/
def wAppend (hN hR : Nat) (st : WriterState) (row : List Nat) : WriterState :=
  { bas := (st.bas.zip (List.range hR)).map
      (fun p => p.1 ++ bandSliceRow hN p.2 row)
    i := st.i + 1
    numItems := st.numItems + 1
    body := st.body }

/-- `MinHashWriter::put`: flush if the buffers hold a full sector, then
append the row to the buffers. -/
def wPut (hN hR : Nat) (st : WriterState) (row : List Nat) : WriterState :=
  wAppend hN hR (if minhashSectorSize ≤ st.i then wFlush hR st else st) row

/-- A sequence of `put` calls. -/
def wPutAll (hN hR : Nat) (st : WriterState) (rows : List (List Nat)) : WriterState :=
  rows.foldl (wPut hN hR) st

/-- `MinHashWriter::close`: flush the tail block; refuse the file when the
item count fails the check `0xFFFFFFFF <= m_num_items` (a `range_error`),
otherwise patch the item count into the header and finalize. -/
def wClose (hN hB hE : Nat) (st : WriterState) : Option MinHashFile :=
  let st := wFlush (hE - hB) st
  if 0xFFFFFFFF ≤ st.numItems then none
  else some ⟨st.numItems, hN, hB, hE, st.body⟩

/-- `open` followed by `put` for every row followed by `close`:
the writer-producing run of the sketcher over a whole shard. -/
def mkMinHashFile (hN hB hE : Nat) (rows : List (List Nat)) : Option MinHashFile :=
  wClose hN hB hE
    (wPutAll hN (hE - hB) ⟨List.replicate (hE - hB) [], 0, 0, []⟩ rows)

/-! Specification-side decomposition of the body into sector blocks. -/

/-- Split a list into chunks of 512 elements; the final chunk holds the
remaining 1..512 elements. -/
def chunkList : List α → List (List α)
  | [] => []
  | a :: l => (a :: l).take minhashSectorSize :: chunkList ((a :: l).drop minhashSectorSize)
termination_by l => l.length
decreasing_by simp [minhashSectorSize]; omega

/-- The bytes of band-offset `r` for the items `rows`, in item order:
each item contributes its `H` values for that band, big-endian. -/
def bandColBytes (hN r : Nat) (rows : List (List Nat)) : List Nat :=
  rows.flatMap (fun row => (bandSliceRow hN r row).flatMap (beBytes 8))

/-- One sector block: the band columns of one chunk of items, band by band. -/
def blockBytes (hN hR : Nat) (c : List (List Nat)) : List Nat :=
  (List.range hR).flatMap (fun r => bandColBytes hN r c)

/-- The whole body: the blocks of all chunks in order. -/
def fileBodyBytes (hN hR : Nat) (rows : List (List Nat)) : List Nat :=
  (chunkList rows).flatMap (blockBytes hN hR)

/-- The band buffers corresponding to a list of buffered rows. -/
def basOf (hN hR : Nat) (rows : List (List Nat)) : List (List Nat) :=
  (List.range hR).map (fun r => rows.flatMap (bandSliceRow hN r))

theorem basOf_nil (hN hR : Nat) : basOf hN hR [] = List.replicate hR [] := by
  simp [basOf, List.map_const]

theorem length_basOf (hN hR : Nat) (rows : List (List Nat)) :
    (basOf hN hR rows).length = hR := by
  simp [basOf]

theorem bas_append_row (hN hR : Nat) (part : List (List Nat)) (row : List Nat) :
    ((basOf hN hR part).zip (List.range hR)).map
      (fun p => p.1 ++ bandSliceRow hN p.2 row) = basOf hN hR (part ++ [row]) := by
  apply List.ext_getElem
  · simp [basOf]
  · intro n h1 h2
    simp [basOf, List.getElem_zip, List.getElem_map, List.getElem_range,
      List.flatMap_append]

theorem bandColBytes_append (hN r : Nat) (xs ys : List (List Nat)) :
    bandColBytes hN r (xs ++ ys)
      = bandColBytes hN r xs ++ bandColBytes hN r ys := by
  simp [bandColBytes]

theorem flatMap_flatMap (l : List α) (f : α → List β) (g : β → List γ) :
    (l.flatMap f).flatMap g = l.flatMap (fun x => (f x).flatMap g) := by
  induction l with
  | nil => rfl
  | cons a as ih => simp [List.flatMap_append, ih]

theorem flush_emit_eq_blockBytes (hN hR : Nat) (part : List (List Nat)) :
    (basOf hN hR part).flatMap (fun ba => ba.flatMap (beBytes 8))
      = blockBytes hN hR part := by
  simp only [basOf, blockBytes, bandColBytes]
  induction List.range hR with
  | nil => rfl
  | cons r rs ih => simp [ih, List.flatMap_append, flatMap_flatMap]

theorem chunkList_of_le (l : List α) (h0 : l ≠ [])
    (hle : l.length ≤ minhashSectorSize) : chunkList l = [l] := by
  rcases l with _ | ⟨a, as⟩
  · exact absurd rfl h0
  · rw [chunkList]
    rw [List.take_of_length_le hle, List.drop_eq_nil_of_le hle]
    simp [chunkList]

theorem chunkList_append_of_full (part rest : List (List α))
    (hfull : part.length = minhashSectorSize) :
    chunkList (part ++ rest) = part :: chunkList rest := by
  rcases part with _ | ⟨p, ps⟩
  · simp [minhashSectorSize] at hfull
  · rw [List.cons_append, chunkList.eq_def]
    dsimp only
    rw [← List.cons_append, ← hfull, List.take_left, List.drop_left]

theorem wFlush_numItems (hR : Nat) (st : WriterState) :
    (wFlush hR st).numItems = st.numItems := by
  by_cases h : 0 < st.i <;> simp [wFlush, h]

theorem wPut_numItems (hN hR : Nat) (st : WriterState) (row : List Nat) :
    (wPut hN hR st row).numItems = st.numItems + 1 := by
  rw [wPut]
  by_cases h : minhashSectorSize ≤ st.i <;> simp [h, wAppend, wFlush_numItems]

theorem wPutAll_numItems (hN hR : Nat) (rows : List (List Nat)) :
    ∀ st : WriterState, (wPutAll hN hR st rows).numItems = st.numItems + rows.length := by
  induction rows with
  | nil => intro st; simp [wPutAll]
  | cons row rest ih =>
      intro st
      show (wPutAll hN hR (wPut hN hR st row) rest).numItems = _
      rw [ih, wPut_numItems]
      simp
      omega

theorem wPut_of_full (hN hR : Nat) (part : List (List Nat)) (nI : Nat)
    (body : List Nat) (row : List Nat) (hfull : part.length = minhashSectorSize) :
    wPut hN hR ⟨basOf hN hR part, part.length, nI, body⟩ row
      = ⟨basOf hN hR [row], ([row] : List (List Nat)).length, nI + 1,
         body ++ blockBytes hN hR part⟩ := by
  rw [wPut]
  have h1 : minhashSectorSize ≤ part.length := Nat.le_of_eq hfull.symm
  rw [if_pos h1, wFlush]
  have h2 : (0 : Nat) < part.length := by
    rw [hfull]; simp [minhashSectorSize]
  rw [if_pos h2]
  simp only [wAppend, flush_emit_eq_blockBytes]
  rw [← basOf_nil hN hR]
  rw [show List.map (fun p => p.1 ++ bandSliceRow hN p.2 row)
        ((basOf hN hR []).zip (List.range hR)) = basOf hN hR ([] ++ [row]) from
      bas_append_row hN hR [] row]
  simp

theorem wPut_of_not_full (hN hR : Nat) (part : List (List Nat)) (nI : Nat)
    (body : List Nat) (row : List Nat) (hnf : part.length < minhashSectorSize) :
    wPut hN hR ⟨basOf hN hR part, part.length, nI, body⟩ row
      = ⟨basOf hN hR (part ++ [row]), (part ++ [row]).length, nI + 1, body⟩ := by
  rw [wPut, if_neg (Nat.not_le.mpr hnf)]
  simp only [wAppend]
  rw [show List.map (fun p => p.1 ++ bandSliceRow hN p.2 row)
        ((basOf hN hR part).zip (List.range hR)) = basOf hN hR (part ++ [row]) from
      bas_append_row hN hR part row]
  simp

theorem wPutAll_flush_body (hN hR : Nat) (rows : List (List Nat)) :
    ∀ (part : List (List Nat)) (nI : Nat) (body : List Nat),
    part.length ≤ minhashSectorSize →
    (wFlush hR (wPutAll hN hR ⟨basOf hN hR part, part.length, nI, body⟩ rows)).body
      = body ++ (chunkList (part ++ rows)).flatMap (blockBytes hN hR) := by
  induction rows with
  | nil =>
      intro part nI body hle
      rcases part with _ | ⟨p, ps⟩
      · simp [wPutAll, wFlush, chunkList]
      · have hpos : 0 < (p :: ps).length := by simp
        rw [wPutAll]
        simp only [List.foldl_nil, List.append_nil]
        rw [wFlush, if_pos hpos]
        rw [chunkList_of_le _ (by simp) hle]
        simp [flush_emit_eq_blockBytes]
  | cons row rest ih =>
      intro part nI body hle
      have hunf : wPutAll hN hR ⟨basOf hN hR part, part.length, nI, body⟩ (row :: rest)
          = wPutAll hN hR (wPut hN hR ⟨basOf hN hR part, part.length, nI, body⟩ row) rest := rfl
      rw [hunf]
      by_cases hfull : part.length = minhashSectorSize
      · rw [wPut_of_full hN hR part nI body row hfull]
        rw [ih [row] (nI + 1) (body ++ blockBytes hN hR part)
          (by simp [minhashSectorSize])]
        rw [show part ++ row :: rest = part ++ ([row] ++ rest) by simp]
        rw [chunkList_append_of_full part ([row] ++ rest) hfull]
        simp
      · have hlt : part.length < minhashSectorSize := by omega
        rw [wPut_of_not_full hN hR part nI body row hlt]
        rw [ih (part ++ [row]) (nI + 1) body (by simp; omega)]
        simp

theorem mkMinHashFile_eq (hN hB hE : Nat) (rows : List (List Nat))
    (h : rows.length < 0xFFFFFFFF) :
    mkMinHashFile hN hB hE rows
      = some ⟨rows.length, hN, hB, hE, fileBodyBytes hN (hE - hB) rows⟩ := by
  have hb := wPutAll_flush_body hN (hE - hB) rows [] 0 []
    (by simp [minhashSectorSize])
  rw [basOf_nil] at hb
  simp only [List.length_nil, List.nil_append] at hb
  have hn : (wFlush (hE - hB) (wPutAll hN (hE - hB)
      ⟨List.replicate (hE - hB) [], 0, 0, []⟩ rows)).numItems = rows.length := by
    rw [wFlush_numItems, wPutAll_numItems]
    simp
  simp only [mkMinHashFile, wClose, hn, hb]
  rw [if_neg (Nat.not_le.mpr h)]
  simp [fileBodyBytes]

theorem mkMinHashFile_none (hN hB hE : Nat) (rows : List (List Nat))
    (h : 0xFFFFFFFF ≤ rows.length) :
    mkMinHashFile hN hB hE rows = none := by
  have hn : (wFlush (hE - hB) (wPutAll hN (hE - hB)
      ⟨List.replicate (hE - hB) [], 0, 0, []⟩ rows)).numItems = rows.length := by
    rw [wFlush_numItems, wPutAll_numItems]
    simp
  simp only [mkMinHashFile, wClose, hn]
  rw [if_pos h]

/-! ## MinHash reader (`MinHashReader::read_bucket_array`) -/

/-- The seek-and-read loop of `read_bucket_array` on explicit parameters:
one slice per full sector block plus one slice for the tail block.  Offsets
are relative to the end of the 32-byte header. -/
def readRaw (hN hR numItems : Nat) (body : List Nat) (r : Nat) : List Nat :=
  ((List.range (numItems / minhashSectorSize)).map (fun sector =>
      listSlice body
        (hR * (minhashSectorSize * 8 * hN) * sector
          + (minhashSectorSize * 8 * hN) * r)
        (minhashSectorSize * 8 * hN))).flatten
    ++ (if 0 < numItems % minhashSectorSize then
          listSlice body
            (hR * (minhashSectorSize * 8 * hN) * (numItems / minhashSectorSize)
              + (numItems % minhashSectorSize * 8 * hN) * r)
            (numItems % minhashSectorSize * 8 * hN)
        else [])

/-- `MinHashReader::read_bucket_array` for band `bucketNumber`; the reader
uses the header fields of the opened file (`m_bytes_per_hash` is always 8
for files produced by `MinHashWriter`). -/
def readBucketArray (f : MinHashFile) (bucketNumber : Nat) : List Nat :=
  readRaw f.numHashValues (f.hEnd - f.hBegin) f.numItems f.body
    (bucketNumber - f.hBegin)

theorem length_flatMap_beBytes (l : List Nat) :
    (l.flatMap (beBytes 8)).length = 8 * l.length := by
  induction l with
  | nil => rfl
  | cons a as ih => simp [ih, length_beBytes]; ring

theorem length_bandSliceRow (hN hR r : Nat) (row : List Nat)
    (hrow : row.length = hR * hN) (hr : r < hR) :
    (bandSliceRow hN r row).length = hN := by
  have h2 : (r + 1) * hN ≤ hR * hN := Nat.mul_le_mul_right hN hr
  rw [Nat.succ_mul] at h2
  simp [bandSliceRow, hrow]
  omega

theorem length_bandColBytes (hN hR r : Nat) (rows : List (List Nat))
    (hrow : ∀ row ∈ rows, row.length = hR * hN) (hr : r < hR) :
    (bandColBytes hN r rows).length = 8 * hN * rows.length := by
  induction rows with
  | nil => rfl
  | cons row rest ih =>
      simp only [bandColBytes, List.flatMap_cons, List.length_append]
      rw [length_flatMap_beBytes,
        length_bandSliceRow hN hR r row (hrow row (by simp)) hr]
      rw [show bandColBytes hN r rest = rest.flatMap
        (fun row => (bandSliceRow hN r row).flatMap (beBytes 8)) from rfl] at ih
      rw [ih (fun row hm => hrow row (by simp [hm]))]
      simp
      ring

theorem length_flatMap_const {α : Type} (l : List α) (f : α → List Nat) (m : Nat)
    (h : ∀ x ∈ l, (f x).length = m) : (l.flatMap f).length = l.length * m := by
  induction l with
  | nil => simp
  | cons a as ih =>
      simp only [List.flatMap_cons, List.length_append, List.length_cons]
      rw [h a (by simp), ih (fun x hx => h x (by simp [hx]))]
      ring

theorem length_blockBytes (hN hR : Nat) (c : List (List Nat))
    (hrow : ∀ row ∈ c, row.length = hR * hN) :
    (blockBytes hN hR c).length = hR * (8 * hN * c.length) := by
  rw [blockBytes, length_flatMap_const (List.range hR) _ (8 * hN * c.length)
    (fun r hr => length_bandColBytes hN hR r c hrow (List.mem_range.mp hr))]
  simp

theorem listSlice_append_left (x y : List Nat) (off len : Nat)
    (h : off + len ≤ x.length) :
    listSlice (x ++ y) off len = listSlice x off len := by
  simp only [listSlice, List.drop_append_eq_append_drop,
    List.take_append_eq_append_take]
  rw [show off - x.length = 0 by omega, List.drop_zero]
  rw [show len - (x.drop off).length = 0 by simp; omega]
  simp

theorem listSlice_append_right (x y : List Nat) (off len : Nat)
    (h : x.length ≤ off) :
    listSlice (x ++ y) off len = listSlice y (off - x.length) len := by
  simp only [listSlice, List.drop_append_eq_append_drop]
  rw [List.drop_eq_nil_of_le h]
  simp

theorem listSlice_flatten (L : List (List Nat)) (m : Nat)
    (hm : ∀ l ∈ L, l.length = m) :
    ∀ k, k < L.length → listSlice L.flatten (m * k) m = L.getD k [] := by
  induction L with
  | nil => intro k hk; simp at hk
  | cons l ls ih =>
      intro k hk
      cases k with
      | zero =>
          simp only [Nat.mul_zero, List.flatten_cons, List.getD_cons_zero]
          rw [listSlice_append_left _ _ _ _ (by rw [hm l (by simp)]; omega)]
          simp [listSlice, List.take_of_length_le, hm l (by simp)]
      | succ k =>
          simp only [List.flatten_cons, List.getD_cons_succ]
          rw [show m * (k + 1) = l.length + m * k by rw [hm l (by simp)]; ring]
          rw [listSlice_append_right _ _ _ _ (by omega)]
          rw [show l.length + m * k - l.length = m * k by omega]
          exact ih (fun x hx => hm x (by simp [hx])) k (by simpa using hk)

/-- Core of the round trip: reading band-offset `r` from the body written
by the sector-blocked writer recovers exactly the band column of all rows. -/
theorem readRaw_fileBody (hN hR r : Nat) (hr : r < hR) :
    ∀ (rows : List (List Nat)), (∀ row ∈ rows, row.length = hR * hN) →
    readRaw hN hR rows.length (fileBodyBytes hN hR rows) r
      = bandColBytes hN r rows := by
  suffices hsuf : ∀ n (rows : List (List Nat)), rows.length = n →
      (∀ row ∈ rows, row.length = hR * hN) →
      readRaw hN hR rows.length (fileBodyBytes hN hR rows) r
        = bandColBytes hN r rows by
    intro rows hrow
    exact hsuf rows.length rows rfl hrow
  intro n
  induction n using Nat.strong_induction_on with
  | _ n ihn =>
  intro rows hlen hrow
  subst hlen
  by_cases hle : rows.length ≤ minhashSectorSize
  · rcases rows with _ | ⟨row0, rest⟩
    · simp [readRaw, bandColBytes, minhashSectorSize]
    · have hlt : 0 < (row0 :: rest).length := by simp
      have hdiv : (row0 :: rest).length / minhashSectorSize
            = if (row0 :: rest).length = minhashSectorSize then 1 else 0 := by
        split <;> rename_i hcase
        · rw [hcase, Nat.div_self (by simp [minhashSectorSize])]
        · exact Nat.div_eq_of_lt (by omega)
      have hmod : (row0 :: rest).length % minhashSectorSize
            = if (row0 :: rest).length = minhashSectorSize then 0
              else (row0 :: rest).length := by
        split <;> rename_i hcase
        · rw [hcase, Nat.mod_self]
        · exact Nat.mod_eq_of_lt (by omega)
      have hbody : fileBodyBytes hN hR (row0 :: rest)
            = blockBytes hN hR (row0 :: rest) := by
        rw [fileBodyBytes, chunkList_of_le _ (by simp) hle]
        simp
      have hcols : ∀ l ∈ (List.range hR).map (fun q => bandColBytes hN q (row0 :: rest)),
          l.length = 8 * hN * (row0 :: rest).length := by
        intro l hl
        rcases List.mem_map.mp hl with ⟨q, hq, rfl⟩
        exact length_bandColBytes hN hR q _ hrow (List.mem_range.mp hq)
      have hflat : blockBytes hN hR (row0 :: rest)
            = ((List.range hR).map (fun q => bandColBytes hN q (row0 :: rest))).flatten := by
        rw [blockBytes, List.flatMap_def]
      have hget : ((List.range hR).map
            (fun q => bandColBytes hN q (row0 :: rest))).getD r []
          = bandColBytes hN r (row0 :: rest) := by
        rw [List.getD_eq_getElem?_getD, List.getElem?_map]
        simp [List.getElem?_range hr]
      by_cases hfull : (row0 :: rest).length = minhashSectorSize
      · have hdiv3 : (row0 :: rest).length / minhashSectorSize = 1 := by
          rw [hfull, Nat.div_self (by simp [minhashSectorSize])]
        have hmod3 : (row0 :: rest).length % minhashSectorSize = 0 := by
          rw [hfull, Nat.mod_self]
        rw [readRaw, hdiv3, hmod3]
        rw [if_neg (Nat.lt_irrefl 0)]
        rw [show List.range 1 = [0] from rfl]
        simp only [List.map_cons, List.map_nil, List.flatten_cons,
          List.flatten_nil, List.append_nil, Nat.mul_zero, Nat.zero_add]
        rw [hbody, hflat]
        have hlen2 : ∀ l ∈ (List.range hR).map
            (fun q => bandColBytes hN q (row0 :: rest)),
            l.length = minhashSectorSize * 8 * hN := by
          intro l hl
          rw [hcols l hl, hfull]
          ring
        have hsl := listSlice_flatten _ (minhashSectorSize * 8 * hN) hlen2 r
          (by simpa using hr)
        rw [show minhashSectorSize * 8 * hN * r
              = minhashSectorSize * 8 * hN * r from rfl]
        rw [hsl, hget]
      · have hmod2 : (row0 :: rest).length % minhashSectorSize = (row0 :: rest).length := by
          rw [hmod, if_neg hfull]
        have hdiv2 : (row0 :: rest).length / minhashSectorSize = 0 := by
          rw [hdiv, if_neg hfull]
        rw [readRaw, hdiv2, hmod2]
        simp only [List.range_zero, List.map_nil, List.flatten_nil,
          List.nil_append, if_pos hlt, Nat.mul_zero, Nat.zero_add]
        rw [hbody, hflat]
        have := listSlice_flatten _ ((row0 :: rest).length * 8 * hN)
          (by intro l hl
              rw [hcols l hl]; ring) r (by simpa using hr)
        rw [this, hget]
  · -- more than one sector: peel off the first full block
    have h512 : minhashSectorSize ≤ rows.length := by omega
    set c := rows.take minhashSectorSize with hc
    set rest := rows.drop minhashSectorSize with hrest
    have hcr : rows = c ++ rest := (List.take_append_drop _ rows).symm
    have hclen : c.length = minhashSectorSize := by
      rw [hc, List.length_take]; omega
    have hrestlen : rest.length = rows.length - minhashSectorSize := by
      rw [hrest, List.length_drop]
    have hrowc : ∀ row ∈ c, row.length = hR * hN := by
      intro row hm; exact hrow row (hcr ▸ List.mem_append_left _ hm)
    have hrowrest : ∀ row ∈ rest, row.length = hR * hN := by
      intro row hm; exact hrow row (hcr ▸ List.mem_append_right _ hm)
    have hbody : fileBodyBytes hN hR rows
          = blockBytes hN hR c ++ fileBodyBytes hN hR rest := by
      rw [fileBodyBytes, hcr, chunkList_append_of_full c rest hclen]
      simp [fileBodyBytes]
    have hblen : (blockBytes hN hR c).length
          = hR * (minhashSectorSize * 8 * hN) := by
      rw [length_blockBytes hN hR c hrowc, hclen]; ring
    have hdiv : rows.length / minhashSectorSize
          = rest.length / minhashSectorSize + 1 := by
      conv_lhs => rw [show rows.length
          = (rows.length - minhashSectorSize) + minhashSectorSize by omega]
      rw [Nat.add_div_right _ (by simp [minhashSectorSize]), hrestlen]
    have hmod : rows.length % minhashSectorSize
          = rest.length % minhashSectorSize := by
      rw [hrestlen]
      conv_lhs => rw [show rows.length = (rows.length - minhashSectorSize) + minhashSectorSize by omega]
      rw [Nat.add_mod_right]
    have ihrest := ihn rest.length (by rw [hrestlen]; simp [minhashSectorSize]; omega)
      rest rfl hrowrest
    rw [readRaw, hdiv, hmod, hbody]
    rw [List.range_succ_eq_map]
    simp only [List.map_cons, List.flatten_cons, List.map_map]
    rw [Nat.mul_zero, Nat.zero_add]
    -- first sector slice: the band column of the first chunk
    have hfirst : listSlice (blockBytes hN hR c ++ fileBodyBytes hN hR rest)
          (minhashSectorSize * 8 * hN * r) (minhashSectorSize * 8 * hN)
        = bandColBytes hN r c := by
      rw [listSlice_append_left _ _ _ _ (by
        rw [hblen]
        have h3 : (r + 1) * (minhashSectorSize * 8 * hN)
            ≤ hR * (minhashSectorSize * 8 * hN) :=
          Nat.mul_le_mul_right _ hr
        rw [Nat.succ_mul] at h3
        rw [show minhashSectorSize * 8 * hN * r
            = r * (minhashSectorSize * 8 * hN) by ring]
        omega)]
      have hflat : blockBytes hN hR c
            = ((List.range hR).map (fun q => bandColBytes hN q c)).flatten := by
        rw [blockBytes, List.flatMap_def]
      have hcols : ∀ l ∈ (List.range hR).map (fun q => bandColBytes hN q c),
          l.length = minhashSectorSize * 8 * hN := by
        intro l hl
        rcases List.mem_map.mp hl with ⟨q, hq, rfl⟩
        rw [length_bandColBytes hN hR q c hrowc (List.mem_range.mp hq), hclen]
        ring
      have := listSlice_flatten _ (minhashSectorSize * 8 * hN) hcols r (by simpa using hr)
      rw [hflat]
      rw [show minhashSectorSize * 8 * hN * r
            = (minhashSectorSize * 8 * hN) * r by ring,
          show (minhashSectorSize * 8 * hN) * r
            = r * (minhashSectorSize * 8 * hN) by ring] at *
      rw [this]
      rw [List.getD_eq_getElem?_getD, List.getElem?_map]
      simp [List.getElem?_range hr]
    rw [hfirst]
    -- every later read lands past the first block and reads the rest's body
    have hshift : ∀ off len : Nat,
        listSlice (blockBytes hN hR c ++ fileBodyBytes hN hR rest)
          (hR * (minhashSectorSize * 8 * hN) + off) len
        = listSlice (fileBodyBytes hN hR rest) off len := by
      intro off len
      rw [listSlice_append_right _ _ _ _ (by rw [hblen]; exact Nat.le_add_right _ _)]
      rw [hblen, Nat.add_sub_cancel_left]
    have hsectors : (List.range (rest.length / minhashSectorSize)).map
          ((fun sector => listSlice (blockBytes hN hR c ++ fileBodyBytes hN hR rest)
              (hR * (minhashSectorSize * 8 * hN) * sector
                + minhashSectorSize * 8 * hN * r)
              (minhashSectorSize * 8 * hN)) ∘ Nat.succ)
        = (List.range (rest.length / minhashSectorSize)).map
          (fun sector => listSlice (fileBodyBytes hN hR rest)
              (hR * (minhashSectorSize * 8 * hN) * sector
                + minhashSectorSize * 8 * hN * r)
              (minhashSectorSize * 8 * hN)) := by
      apply List.map_congr_left
      intro s _
      simp only [Function.comp, Nat.succ_eq_add_one]
      rw [show hR * (minhashSectorSize * 8 * hN) * (s + 1)
            + minhashSectorSize * 8 * hN * r
          = hR * (minhashSectorSize * 8 * hN)
            + (hR * (minhashSectorSize * 8 * hN) * s
              + minhashSectorSize * 8 * hN * r) by ring]
      exact hshift _ _
    have htail : (if 0 < rest.length % minhashSectorSize then
          listSlice (blockBytes hN hR c ++ fileBodyBytes hN hR rest)
            (hR * (minhashSectorSize * 8 * hN) * (rest.length / minhashSectorSize + 1)
              + rest.length % minhashSectorSize * 8 * hN * r)
            (rest.length % minhashSectorSize * 8 * hN)
        else [])
        = (if 0 < rest.length % minhashSectorSize then
          listSlice (fileBodyBytes hN hR rest)
            (hR * (minhashSectorSize * 8 * hN) * (rest.length / minhashSectorSize)
              + rest.length % minhashSectorSize * 8 * hN * r)
            (rest.length % minhashSectorSize * 8 * hN)
        else []) := by
      split
      · rw [show hR * (minhashSectorSize * 8 * hN) * (rest.length / minhashSectorSize + 1)
              + rest.length % minhashSectorSize * 8 * hN * r
            = hR * (minhashSectorSize * 8 * hN)
              + (hR * (minhashSectorSize * 8 * hN) * (rest.length / minhashSectorSize)
                + rest.length % minhashSectorSize * 8 * hN * r) by ring]
        exact hshift _ _
      · rfl
    rw [hsectors, htail, List.append_assoc]
    rw [show ((List.range (rest.length / minhashSectorSize)).map
          (fun sector => listSlice (fileBodyBytes hN hR rest)
              (hR * (minhashSectorSize * 8 * hN) * sector
                + minhashSectorSize * 8 * hN * r)
              (minhashSectorSize * 8 * hN))).flatten
        ++ (if 0 < rest.length % minhashSectorSize then
          listSlice (fileBodyBytes hN hR rest)
            (hR * (minhashSectorSize * 8 * hN) * (rest.length / minhashSectorSize)
              + rest.length % minhashSectorSize * 8 * hN * r)
            (rest.length % minhashSectorSize * 8 * hN)
        else [])
        = readRaw hN hR rest.length (fileBodyBytes hN hR rest) r from rfl]
    rw [ihrest, hcr, bandColBytes_append]

/-! ## The deduper's per-band bucket load (src/dedup.cc, lines 337-365)

`MinHashLSH::deduplicate_bucket` does not call `read_bucket_array`; for
every item `j` of a shard it seeks to `32 + bytes_per_item * j +
offset_bucket` and reads `bytes_per_bucket` bytes, where `bytes_per_item =
bytes_per_bucket * (end - begin)` and `offset_bucket = bytes_per_bucket *
(bucket_number - begin)` - item-major addressing of a file whose writer
uses the sector-blocked bucket-major layout. -/

/-- The bytes that `deduplicate_bucket`'s read loop places into the bucket
buffer slice of one shard (concatenated over the shard's items). -/
def dedupShardLoad (f : MinHashFile) (bucketNumber : Nat) : List Nat :=
  (List.range f.numItems).flatMap (fun j =>
    listSlice f.body
      (8 * f.numHashValues * (f.hEnd - f.hBegin) * j
        + 8 * f.numHashValues * (bucketNumber - f.hBegin))
      (8 * f.numHashValues))

/-- A two-item, two-band MinHash file used to exercise the deduper's read
pattern (H = 1, bands [0, 2), rows with pairwise distinct hash values). -/
def c1file : MinHashFile :=
  (mkMinHashFile 1 0 2 [[1, 2], [3, 4]]).getD ⟨0, 0, 0, 0, []⟩

/-- Decidable equality on `Except`, so that concrete runs of the
fallible writers can be evaluated inside proofs. -/
instance {ε α : Type} [DecidableEq ε] [DecidableEq α] :
    DecidableEq (Except ε α) := fun x y =>
  match x, y with
  | .error a, .error b =>
      if h : a = b then .isTrue (by rw [h])
      else .isFalse (by intro hc; cases hc; exact h rfl)
  | .error _, .ok _ => .isFalse (by intro hc; cases hc)
  | .ok _, .error _ => .isFalse (by intro hc; cases hc)
  | .ok a, .ok b =>
      if h : a = b then .isTrue (by rw [h])
      else .isFalse (by intro hc; cases hc; exact h rfl)

/-! ## IndexWriter (src/common.h) -/

/-- `IndexWriter::write_item`: refuse group numbers above 16 bits and item
indices above 48 bits (`range_error`), otherwise emit the bucket bytes
followed by the big-endian 8-byte value `(g << 48) | i`. -/
def writeItem (g i : Nat) (bucket : List Nat) : Except String (List Nat) :=
  if 0xFFFF < g then .error "Group number is out of range"
  else if 0x0000FFFFFFFFFFFF < i then .error "Index number is out of range"
  else .ok (bucket ++ beBytes 8 ((g <<< 48) ||| i))

theorem lor_shift48 (g i : Nat) (h : i < 2 ^ 48) :
    (g <<< 48) ||| i = g * 2 ^ 48 + i := by
  apply Nat.eq_of_testBit_eq
  intro j
  rw [Nat.testBit_or, Nat.testBit_shiftLeft, Nat.mul_comm g,
    Nat.testBit_mul_pow_two_add _ h]
  by_cases hj : 48 ≤ j
  · simp [hj, Nat.not_lt.mpr hj,
      Nat.testBit_eq_false_of_lt
        (Nat.lt_of_lt_of_le h (Nat.pow_le_pow_right (by norm_num) hj))]
  · simp [hj, Nat.lt_of_not_le hj]

theorem writeItem_ok {g i : Nat} (bucket : List Nat)
    (hg : g ≤ 0xFFFF) (hi : i < 2 ^ 48) :
    writeItem g i bucket = .ok (bucket ++ beBytes 8 (g * 2 ^ 48 + i)) := by
  rw [writeItem, if_neg (by omega), if_neg (by norm_num; omega),
    lor_shift48 g i hi]

/-! ## Group deduper (src/dedup.cc)

One band of `MinHashLSH::deduplicate_bucket` after the bucket load: sort
the item array by `(bucket bytes, item index)`, sweep maximal equal-bucket
runs marking every non-first member with the transient flag 'd', write an
index record for every item in sort order whose flag is not 'd', then
promote flags with `toupper` ('d' becomes 'D'). -/

/-- Bucket bytes of item `i` in the shared bucket buffer (`Item::ptr`). -/
def bucketOf (bks : List (List Nat)) (i : Nat) : List Nat := bks.getD i []

/-- `Item::operator<=>` as a total Boolean order: dictionary order of the
bucket byte streams, ties broken by ascending item index. -/
def itemLe (bks : List (List Nat)) (a b : Nat) : Bool :=
  match byteCompare (bucketOf bks a) (bucketOf bks b) with
  | .lt => true
  | .gt => false
  | .eq => decide (a ≤ b)

/-- Insert an element into a sorted list. -/
def insOne (le : α → α → Bool) (a : α) : List α → List α
  | [] => [a]
  | b :: l => if le a b then a :: b :: l else b :: insOne le a l

/-- Insertion sort.  `tbb::parallel_sort` sorts `m_items` by the strict
total order of `Item::operator<=>`; that order is antisymmetric on the
distinct item indices, so the sorted permutation is unique and any
comparison sort is an exact model of its result. -/
def insSort (le : α → α → Bool) : List α → List α
  | [] => []
  | a :: l => insOne le a (insSort le l)

/-- The item array `m_items` after the per-band parallel sort. -/
def sortItems (bks : List (List Nat)) (n : Nat) : List Nat :=
  insSort (itemLe bks) (List.range n)

/-- One pass of the find-duplicates sweep after its first element: set the
flag of every item whose predecessor in the sorted order has a byte-equal
bucket to 'd' (overwriting whatever flag it held).  The source loop scans
each maximal equal-bucket run and marks all members but the first; an item
is a non-first member of its maximal run exactly when it is bucket-equal
to its immediate predecessor, so this adjacent formulation computes the
same flags while recursing structurally. -/
def markAdj (bks : List (List Nat)) (prev : Nat) :
    List Nat → List Char → List Char
  | [], fs => fs
  | x :: rest, fs =>
      markAdj bks x rest
        (if bucketOf bks x == bucketOf bks prev then fs.set x 'd' else fs)

/-- The find-duplicates sweep over the whole sorted item array. -/
def markDups (bks : List (List Nat)) : List Nat → List Char → List Char
  | [], fs => fs
  | cur :: rest, fs => markAdj bks cur rest fs

/-- Flag state right after the find-duplicates sweep of one band,
before the index write and the promotion. -/
def bandMark (bks : List (List Nat)) (n : Nat) (fs : List Char) : List Char :=
  markDups bks (sortItems bks n) fs

/-- End-of-band promotion: `std::toupper` on every flag ('d' becomes 'D',
' ' and 'D' are unchanged). -/
def promoteFlags (fs : List Char) : List Char := fs.map Char.toUpper

/-- The index-record write loop: one `write_item` call per item, aborting
on the first range error. -/
def writeIndexItems (g : Nat) (bks : List (List Nat)) :
    List Nat → Except String (List (List Nat))
  | [] => .ok []
  | i :: rest =>
      match writeItem g i (bucketOf bks i) with
      | .error e => .error e
      | .ok rec1 =>
          match writeIndexItems g bks rest with
          | .error e => .error e
          | .ok recs => .ok (rec1 :: recs)

/-- The records of the band's index file: every item in sort order whose
flag after the sweep is not 'd'. -/
def bandRecords (bks : List (List Nat)) (n g : Nat) (fs : List Char) :
    Except String (List (List Nat)) :=
  writeIndexItems g bks
    ((sortItems bks n).filter
      (fun i => !((bandMark bks n fs).getD i ' ' == 'd')))

/-- The flag vector after a full band (sweep then promotion). -/
def bandStep (bks : List (List Nat)) (n : Nat) (fs : List Char) : List Char :=
  promoteFlags (bandMark bks n fs)

/-- The flag vector after running a list of bands in order (the loop of
`MinHashLSH::run` over `bn` in `[begin, end)`). -/
def runBands (n : Nat) (bandsBks : List (List (List Nat)))
    (fs : List Char) : List Char :=
  bandsBks.foldl (fun f bks => bandStep bks n f) fs

/-! Auxiliary facts about flag updates (`List.set`) and the sort. -/

theorem getD_set_or (fs : List Char) (j i : Nat) (v d : Char) :
    (fs.set j v).getD i d = v ∨ (fs.set j v).getD i d = fs.getD i d := by
  by_cases hij : j = i
  · subst hij
    by_cases hlt : j < fs.length
    · left
      rw [List.getD_eq_getElem?_getD, List.getElem?_set_self hlt]
      rfl
    · right
      rw [List.getD_eq_getElem?_getD, List.getD_eq_getElem?_getD,
        List.getElem?_eq_none (by simpa using Nat.le_of_not_lt hlt),
        List.getElem?_eq_none (Nat.le_of_not_lt hlt)]
  · right
    rw [List.getD_eq_getElem?_getD, List.getD_eq_getElem?_getD,
      List.getElem?_set_ne hij]

theorem getD_set_ne (fs : List Char) (j i : Nat) (v d : Char) (h : j ≠ i) :
    (fs.set j v).getD i d = fs.getD i d := by
  rw [List.getD_eq_getElem?_getD, List.getD_eq_getElem?_getD,
    List.getElem?_set_ne h]

theorem getD_set_self (fs : List Char) (j : Nat) (v d : Char)
    (h : j < fs.length) : (fs.set j v).getD j d = v := by
  rw [List.getD_eq_getElem?_getD, List.getElem?_set_self h]
  rfl

theorem foldl_set_length (run : List Nat) :
    ∀ fs : List Char, (run.foldl (fun f j => f.set j 'd') fs).length = fs.length := by
  induction run with
  | nil => intro fs; rfl
  | cons j rest ih =>
      intro fs
      simp only [List.foldl_cons]
      rw [ih, List.length_set]

theorem foldl_set_getD_or (run : List Nat) :
    ∀ (fs : List Char) (i : Nat),
    (run.foldl (fun f j => f.set j 'd') fs).getD i ' ' = 'd'
      ∨ (run.foldl (fun f j => f.set j 'd') fs).getD i ' ' = fs.getD i ' ' := by
  induction run with
  | nil => intro fs i; right; rfl
  | cons j rest ih =>
      intro fs i
      simp only [List.foldl_cons]
      rcases ih (fs.set j 'd') i with h | h
      · left; exact h
      · rcases getD_set_or fs j i 'd' ' ' with h2 | h2
        · left; rw [h, h2]
        · right; rw [h, h2]

theorem foldl_set_d_stable (run : List Nat) (fs : List Char) (i : Nat)
    (h : fs.getD i ' ' = 'd') :
    (run.foldl (fun f j => f.set j 'd') fs).getD i ' ' = 'd' := by
  rcases foldl_set_getD_or run fs i with h2 | h2
  · exact h2
  · rw [h2, h]

theorem foldl_set_getD_not_mem (run : List Nat) :
    ∀ (fs : List Char) (i : Nat), i ∉ run →
    (run.foldl (fun f j => f.set j 'd') fs).getD i ' ' = fs.getD i ' ' := by
  induction run with
  | nil => intro fs i _; rfl
  | cons j rest ih =>
      intro fs i hmem
      simp only [List.foldl_cons]
      rw [ih _ _ (by intro hc; exact hmem (by simp [hc]))]
      exact getD_set_ne fs j i 'd' ' ' (by intro hc; exact hmem (by simp [hc]))

theorem foldl_set_getD_mem (run : List Nat) :
    ∀ (fs : List Char) (i : Nat), i ∈ run → i < fs.length →
    (run.foldl (fun f j => f.set j 'd') fs).getD i ' ' = 'd' := by
  induction run with
  | nil => intro fs i h _; simp at h
  | cons j rest ih =>
      intro fs i hmem hlen
      simp only [List.foldl_cons]
      by_cases hji : i ∈ rest
      · exact ih _ _ hji (by rw [List.length_set]; exact hlen)
      · have hij : i = j := by
          rcases List.mem_cons.mp hmem with h | h
          · exact h
          · exact absurd h hji
        subst hij
        exact foldl_set_d_stable rest _ i (getD_set_self fs i 'd' ' ' hlen)

theorem insOne_perm (le : α → α → Bool) (a : α) (l : List α) :
    (insOne le a l).Perm (a :: l) := by
  induction l with
  | nil => exact List.Perm.refl _
  | cons b bs ih =>
      rw [insOne]
      split
      · exact List.Perm.refl _
      · exact List.Perm.trans (List.Perm.cons b ih) (List.Perm.swap a b bs)

theorem insSort_perm (le : α → α → Bool) (l : List α) :
    (insSort le l).Perm l := by
  induction l with
  | nil => exact List.Perm.refl _
  | cons a as ih =>
      rw [insSort]
      exact List.Perm.trans (insOne_perm le a (insSort le as)) (List.Perm.cons a ih)

theorem insOne_pairwise {le : α → α → Bool}
    (htrans : ∀ a b c, le a b = true → le b c = true → le a c = true)
    (htotal : ∀ a b, (le a b || le b a) = true) (a : α) (l : List α)
    (h : List.Pairwise (fun x y => le x y = true) l) :
    List.Pairwise (fun x y => le x y = true) (insOne le a l) := by
  induction l with
  | nil => exact List.pairwise_singleton _ _
  | cons b bs ih =>
      rw [insOne]
      split <;> rename_i hab
      · refine List.Pairwise.cons ?_ h
        intro x hx
        rcases List.mem_cons.mp hx with rfl | hx
        · exact hab
        · exact htrans a b x hab (List.rel_of_pairwise_cons h hx)
      · have hba : le b a = true := by
          rcases Bool.or_eq_true_iff.mp (htotal a b) with h1 | h1
          · exact absurd h1 hab
          · exact h1
        refine List.Pairwise.cons ?_ (ih (List.Pairwise.of_cons h))
        intro x hx
        have hx2 : x ∈ a :: bs := (insOne_perm le a bs).mem_iff.mp hx
        rcases List.mem_cons.mp hx2 with rfl | hx2
        · exact hba
        · exact List.rel_of_pairwise_cons h hx2

theorem insSort_pairwise {le : α → α → Bool}
    (htrans : ∀ a b c, le a b = true → le b c = true → le a c = true)
    (htotal : ∀ a b, (le a b || le b a) = true) (l : List α) :
    List.Pairwise (fun x y => le x y = true) (insSort le l) := by
  induction l with
  | nil => exact List.Pairwise.nil
  | cons a as ih => exact insOne_pairwise htrans htotal a _ ih

/-- The strict version of the item order: bucket bytes lexicographically
smaller, or byte-equal buckets and a smaller item index. -/
def keyLt (bks : List (List Nat)) (a b : Nat) : Prop :=
  List.Lex (· < ·) (bucketOf bks a) (bucketOf bks b)
  ∨ (bucketOf bks a = bucketOf bks b ∧ a < b)

theorem itemLe_trans (bks : List (List Nat)) :
    ∀ a b c, itemLe bks a b = true → itemLe bks b c = true →
    itemLe bks a c = true := by
  intro a b c hab hbc
  rw [itemLe] at *
  rcases h1 : byteCompare (bucketOf bks a) (bucketOf bks b) with _ | _ | _ <;>
    rw [h1] at hab <;>
    rcases h2 : byteCompare (bucketOf bks b) (bucketOf bks c) with _ | _ | _ <;>
      rw [h2] at hbc <;>
      simp at hab hbc
  · -- both lt: lexicographic transitivity
    have h3 := lex_trans (byteCompare_lt_iff _ _ |>.mp h1)
      (byteCompare_lt_iff _ _ |>.mp h2)
    rw [(byteCompare_lt_iff _ _).mpr h3]
  · -- lt then eq
    have he := (byteCompare_eq_iff _ _).mp h2
    have h3 := (byteCompare_lt_iff _ _).mp h1
    rw [he] at h3
    rw [(byteCompare_lt_iff _ _).mpr h3]
  · -- eq then lt
    have he := (byteCompare_eq_iff _ _).mp h1
    have h3 := (byteCompare_lt_iff _ _).mp h2
    rw [← he] at h3
    rw [(byteCompare_lt_iff _ _).mpr h3]
  · -- both eq
    have he1 := (byteCompare_eq_iff _ _).mp h1
    have he2 := (byteCompare_eq_iff _ _).mp h2
    rw [(byteCompare_eq_iff _ _).mpr (he1.trans he2)]
    simp
    omega

theorem itemLe_total (bks : List (List Nat)) :
    ∀ a b, (itemLe bks a b || itemLe bks b a) = true := by
  intro a b
  rw [itemLe, itemLe]
  rcases h1 : byteCompare (bucketOf bks a) (bucketOf bks b) with _ | _ | _
  · simp
  · have he := (byteCompare_eq_iff _ _).mp h1
    rw [(byteCompare_eq_iff _ _).mpr he.symm]
    simp only [Bool.or_eq_true, decide_eq_true_eq]
    omega
  · have := (byteCompare_gt_iff _ _).mp h1
    rw [(byteCompare_lt_iff _ _).mpr this]
    simp

theorem keyLt_of_le_ne (bks : List (List Nat)) {a b : Nat}
    (hle : itemLe bks a b = true) (hne : a ≠ b) : keyLt bks a b := by
  rw [itemLe] at hle
  rcases h1 : byteCompare (bucketOf bks a) (bucketOf bks b) with _ | _ | _ <;>
    rw [h1] at hle
  · exact Or.inl ((byteCompare_lt_iff _ _).mp h1)
  · refine Or.inr ⟨(byteCompare_eq_iff _ _).mp h1, ?_⟩
    simp only [decide_eq_true_eq] at hle
    omega
  · exact absurd hle (by simp)

theorem sortItems_perm (bks : List (List Nat)) (n : Nat) :
    (sortItems bks n).Perm (List.range n) :=
  insSort_perm (itemLe bks) (List.range n)

theorem sortItems_mem (bks : List (List Nat)) (n i : Nat) :
    i ∈ sortItems bks n ↔ i < n := by
  rw [(sortItems_perm bks n).mem_iff, List.mem_range]

theorem sortItems_nodup (bks : List (List Nat)) (n : Nat) :
    (sortItems bks n).Nodup :=
  ((sortItems_perm bks n).symm.nodup (List.nodup_range n))

theorem sortItems_pairwise_keyLt (bks : List (List Nat)) (n : Nat) :
    List.Pairwise (keyLt bks) (sortItems bks n) := by
  have hle := insSort_pairwise (itemLe_trans bks) (itemLe_total bks) (List.range n)
  have hne : List.Pairwise (fun a b : Nat => a ≠ b) (sortItems bks n) :=
    sortItems_nodup bks n
  exact (hle.and hne).imp (fun h => keyLt_of_le_ne bks h.1 h.2)

theorem keyLt_irrefl (bks : List (List Nat)) (a : Nat) : ¬ keyLt bks a a := by
  intro h
  rcases h with h | ⟨_, h⟩
  · exact lex_irrefl _ h
  · omega

theorem keyLt_ne (bks : List (List Nat)) {a b : Nat} (h : keyLt bks a b) :
    a ≠ b := by
  intro hab
  subst hab
  exact keyLt_irrefl bks a h

/-- An item ordered between two items with byte-equal buckets has that
same bucket. -/
theorem bucket_between (bks : List (List Nat)) {a b c : Nat}
    (h1 : keyLt bks a b) (h2 : keyLt bks b c)
    (heq : bucketOf bks a = bucketOf bks c) :
    bucketOf bks b = bucketOf bks a := by
  rcases h1 with h1 | ⟨h1, _⟩ <;> rcases h2 with h2 | ⟨h2, _⟩
  · have h3 := lex_trans h1 h2
    rw [heq] at h3
    exact absurd h3 (lex_irrefl _)
  · exact h2.trans heq.symm
  · exact h1.symm
  · exact h1.symm

theorem markAdj_length (bks : List (List Nat)) :
    ∀ (l : List Nat) (prev : Nat) (fs : List Char),
    (markAdj bks prev l fs).length = fs.length := by
  intro l
  induction l with
  | nil => intro prev fs; rfl
  | cons x rest ih =>
      intro prev fs
      rw [markAdj, ih]
      split
      · rw [List.length_set]
      · rfl

theorem markAdj_getD_or (bks : List (List Nat)) :
    ∀ (l : List Nat) (prev : Nat) (fs : List Char) (i : Nat),
    (markAdj bks prev l fs).getD i ' ' = 'd'
      ∨ (markAdj bks prev l fs).getD i ' ' = fs.getD i ' ' := by
  intro l
  induction l with
  | nil => intro prev fs i; right; rfl
  | cons x rest ih =>
      intro prev fs i
      rw [markAdj]
      split
      · rcases ih x _ i with h | h
        · left; exact h
        · rcases getD_set_or fs x i 'd' ' ' with h2 | h2
          · left; rw [h, h2]
          · right; rw [h, h2]
      · exact ih x fs i

theorem markAdj_d_stable (bks : List (List Nat)) :
    ∀ (l : List Nat) (prev : Nat) (fs : List Char) (i : Nat),
    fs.getD i ' ' = 'd' → (markAdj bks prev l fs).getD i ' ' = 'd' := by
  intro l
  induction l with
  | nil => intro prev fs i h; exact h
  | cons x rest ih =>
      intro prev fs i h
      rw [markAdj]
      apply ih
      split
      · rcases getD_set_or fs x i 'd' ' ' with h2 | h2
        · exact h2
        · rw [h2, h]
      · exact h

theorem markAdj_not_mem (bks : List (List Nat)) :
    ∀ (l : List Nat) (prev : Nat) (fs : List Char) (i : Nat), i ∉ l →
    (markAdj bks prev l fs).getD i ' ' = fs.getD i ' ' := by
  intro l
  induction l with
  | nil => intro prev fs i _; rfl
  | cons x rest ih =>
      intro prev fs i hmem
      rw [markAdj, ih x _ i (fun hc => hmem (by simp [hc]))]
      split
      · exact getD_set_ne fs x i 'd' ' ' (fun hc => hmem (by simp [hc.symm]))
      · rfl

/-- In a strictly sorted item list, every item with an earlier byte-equal
item is marked 'd' by the sweep. -/
theorem markAdj_marked (bks : List (List Nat)) :
    ∀ (l : List Nat) (prev : Nat) (fs : List Char) (i j : Nat),
    List.Pairwise (keyLt bks) (prev :: l) → i ∈ l →
    (j = prev ∨ j ∈ l) → j < i → bucketOf bks j = bucketOf bks i →
    i < fs.length →
    (markAdj bks prev l fs).getD i ' ' = 'd' := by
  intro l
  induction l with
  | nil => intro prev fs i j _ hi _ _ _ _; simp at hi
  | cons x rest ih =>
      intro prev fs i j hpw hi hj hlt heq hlen
      have hpwx : List.Pairwise (keyLt bks) (x :: rest) := hpw.of_cons
      have hprevx : keyLt bks prev x :=
        List.rel_of_pairwise_cons hpw (by simp)
      rcases List.mem_cons.mp hi with rfl | hirest
      · -- i is the first element after prev: the earlier equal item must be prev
        have hjprev : j = prev := by
          rcases hj with h | h
          · exact h
          · rcases List.mem_cons.mp h with rfl | hjrest
            · omega
            · have := List.rel_of_pairwise_cons hpwx hjrest
              rcases this with hlex | ⟨_, hij⟩
              · rw [heq] at hlex
                exact absurd hlex (lex_irrefl _)
              · omega
        subst hjprev
        rw [markAdj]
        rw [if_pos (beq_iff_eq.mpr (heq.symm))]
        exact markAdj_d_stable bks rest i _ i (getD_set_self fs i 'd' ' ' hlen)
      · -- i lies deeper: recurse with the new predecessor x
        rw [markAdj]
        have hlen2 : i < (if bucketOf bks x == bucketOf bks prev
            then fs.set x 'd' else fs).length := by
          split
          · rw [List.length_set]; exact hlen
          · exact hlen
        rcases hj with rfl | hjx
        · -- the earlier equal item is prev: x is bucket-equal as well
          have hxi : keyLt bks x i := List.rel_of_pairwise_cons hpwx hirest
          have hbx : bucketOf bks x = bucketOf bks j :=
            bucket_between bks hprevx hxi heq
          have hxlt : x < i := by
            rcases hxi with hlex | ⟨_, h⟩
            · rw [hbx, heq] at hlex
              exact absurd hlex (lex_irrefl _)
            · exact h
          exact ih x _ i x hpwx hirest (Or.inl rfl) hxlt
            (hbx.trans heq) hlen2
        · rcases List.mem_cons.mp hjx with rfl | hjrest
          · exact ih j _ i j hpwx hirest (Or.inl rfl) hlt heq hlen2
          · exact ih x _ i j hpwx hirest (Or.inr hjrest) hlt heq hlen2

/-- In a strictly sorted item list, an item with no earlier byte-equal
item keeps its flag through the sweep. -/
theorem markAdj_unmarked (bks : List (List Nat)) :
    ∀ (l : List Nat) (prev : Nat) (fs : List Char) (i : Nat),
    List.Pairwise (keyLt bks) (prev :: l) →
    (∀ j, (j = prev ∨ j ∈ l) → bucketOf bks j = bucketOf bks i → ¬ j < i) →
    (markAdj bks prev l fs).getD i ' ' = fs.getD i ' ' := by
  intro l
  induction l with
  | nil => intro prev fs i _ _; rfl
  | cons x rest ih =>
      intro prev fs i hpw hnone
      have hpwx : List.Pairwise (keyLt bks) (x :: rest) := hpw.of_cons
      rw [markAdj]
      rw [ih x _ i hpwx (fun j hj hb =>
        hnone j (by rcases hj with h | h
                    · exact Or.inr (by simp [h])
                    · exact Or.inr (by simp [h])) hb)]
      split <;> rename_i hcond
      · -- the set fires: it cannot hit i
        refine getD_set_ne fs x i 'd' ' ' ?_
        intro hxi
        subst hxi
        have hbeq : bucketOf bks x = bucketOf bks prev := beq_iff_eq.mp hcond
        have hprevx : keyLt bks prev x :=
          List.rel_of_pairwise_cons hpw (by simp)
        rcases hprevx with hlex | ⟨_, hlt⟩
        · rw [hbeq] at hlex
          exact absurd hlex (lex_irrefl _)
        · exact hnone prev (Or.inl rfl) hbeq.symm hlt
      · rfl

/-- The marked flag of item `i` after the whole sweep of a strictly
sorted list: 'd' exactly when some earlier byte-equal item exists. -/
theorem markDups_marked (bks : List (List Nat)) (l : List Nat)
    (fs : List Char) (i j : Nat) (hpw : List.Pairwise (keyLt bks) l)
    (hi : i ∈ l) (hj : j ∈ l) (hlt : j < i)
    (heq : bucketOf bks j = bucketOf bks i) (hlen : i < fs.length) :
    (markDups bks l fs).getD i ' ' = 'd' := by
  rcases l with _ | ⟨cur, rest⟩
  · simp at hi
  · rw [markDups]
    rcases List.mem_cons.mp hi with rfl | hirest
    · -- i cannot be the global first element
      exfalso
      rcases List.mem_cons.mp hj with rfl | hjrest
      · omega
      · have := List.rel_of_pairwise_cons hpw hjrest
        rcases this with hlex | ⟨_, h⟩
        · rw [heq] at hlex
          exact absurd hlex (lex_irrefl _)
        · omega
    · rcases List.mem_cons.mp hj with rfl | hjrest
      · exact markAdj_marked bks rest j fs i j hpw hirest (Or.inl rfl)
          hlt heq hlen
      · exact markAdj_marked bks rest cur fs i j hpw hirest (Or.inr hjrest)
          hlt heq hlen

theorem markDups_unmarked (bks : List (List Nat)) (l : List Nat)
    (fs : List Char) (i : Nat) (hpw : List.Pairwise (keyLt bks) l)
    (hnone : ∀ j ∈ l, bucketOf bks j = bucketOf bks i → ¬ j < i) :
    (markDups bks l fs).getD i ' ' = fs.getD i ' ' := by
  rcases l with _ | ⟨cur, rest⟩
  · rfl
  · rw [markDups]
    exact markAdj_unmarked bks rest cur fs i hpw (fun j hj hb =>
      hnone j (by rcases hj with h | h
                  · simp [h]
                  · simp [h]) hb)

theorem markDups_getD_or (bks : List (List Nat)) (l : List Nat)
    (fs : List Char) (i : Nat) :
    (markDups bks l fs).getD i ' ' = 'd'
      ∨ (markDups bks l fs).getD i ' ' = fs.getD i ' ' := by
  rcases l with _ | ⟨cur, rest⟩
  · right; rfl
  · rw [markDups]; exact markAdj_getD_or bks rest cur fs i

theorem markDups_length (bks : List (List Nat)) (l : List Nat)
    (fs : List Char) : (markDups bks l fs).length = fs.length := by
  rcases l with _ | ⟨cur, rest⟩
  · rfl
  · rw [markDups]; exact markAdj_length bks rest cur fs

theorem getD_map_char (f : Char → Char) (l : List Char) (i : Nat) (d : Char)
    (hd : f d = d) : (l.map f).getD i d = f (l.getD i d) := by
  rw [List.getD_eq_getElem?_getD, List.getD_eq_getElem?_getD, List.getElem?_map]
  cases l[i]? <;> simp [hd]

theorem promoteFlags_getD (fs : List Char) (i : Nat) :
    (promoteFlags fs).getD i ' ' = Char.toUpper (fs.getD i ' ') :=
  getD_map_char Char.toUpper fs i ' ' (by decide)

/-- One full band never turns a committed 'D' flag back into anything
else: the sweep can only overwrite it with 'd' and the promotion restores
'D'. -/
theorem bandStep_D (bks : List (List Nat)) (n : Nat) (fs : List Char)
    (i : Nat) (h : fs.getD i ' ' = 'D') :
    (bandStep bks n fs).getD i ' ' = 'D' := by
  rw [bandStep, promoteFlags_getD]
  rcases markDups_getD_or bks (sortItems bks n) fs i with h2 | h2 <;>
    rw [bandMark, h2]
  · rfl
  · rw [h]
    rfl

theorem runBands_D (n : Nat) (bandsBks : List (List (List Nat))) :
    ∀ (fs : List Char) (i : Nat), fs.getD i ' ' = 'D' →
    (runBands n bandsBks fs).getD i ' ' = 'D' := by
  induction bandsBks with
  | nil => intro fs i h; exact h
  | cons bks rest ih =>
      intro fs i h
      exact ih (bandStep bks n fs) i (bandStep_D bks n fs i h)

theorem getD_mem_of_lt {l : List Nat} {i : Nat} (d : Nat) (h : i < l.length) :
    l.getD i d ∈ l := by
  rw [List.getD_eq_getElem?_getD, List.getElem?_eq_getElem h]
  exact List.getElem_mem h

theorem writeIndexItems_ok (g : Nat) (bks : List (List Nat)) (l : List Nat)
    (hg : g ≤ 0xFFFF) (hl : ∀ i ∈ l, i < 2 ^ 48) :
    writeIndexItems g bks l
      = .ok (l.map (fun i => bucketOf bks i ++ beBytes 8 (g * 2 ^ 48 + i))) := by
  induction l with
  | nil => rfl
  | cons i rest ih =>
      rw [writeIndexItems, writeItem_ok (bucketOf bks i) hg (hl i (by simp)),
        ih (fun x hx => hl x (by simp [hx]))]
      rfl

/-! ## K-way index merger (src/merge.cc)

`merge_index` opens the per-group index files of one band, sums their
header counts into the header written by `IndexWriter::open`, and
heap-merges their records by the full byte sequence.  The popped records
are printed to stdout ("+" for the representative of each bucket-equal
run, "-" for detected cross-group duplicates); the call that would write
a record into the output index body (`writer.write_raw(...)`) is
commented out in the source, and `num_active_items` is never updated
after the loop.  Header-consistency checks across sources
(`bytes_per_bucket`) are assumed satisfied here. -/

/-- One source index of a band: the `num_total_items` and
`num_active_items` header fields and the record stream (full byte
sequences of `bytes_per_bucket + 8` bytes each). -/
structure IndexSource where
  numTotalItems : Nat
  numActiveItems : Nat
  records : List (List Nat)
  deriving Repr, DecidableEq

/-- The merger's `Item::operator==`: byte equality of the records
ignoring the final 8 bytes that encode `(g, i)`. -/
def recBucketEq (x y : List Nat) : Bool :=
  x.take (x.length - 8) == y.take (y.length - 8)

/-- The merger's `Item::operator<=>` as the priority-queue order: the
least full record pops first; its ties (byte-identical records from two
readers, which the C++ heap pops in unspecified order) are broken here by
the reader index. -/
def recLe (x y : List Nat × Nat) : Bool :=
  match byteCompare x.1 y.1 with
  | .lt => true
  | .gt => false
  | .eq => decide (x.2 ≤ y.2)

/-- Pop the least entry of the priority queue. -/
def popMin : List (List Nat × Nat) →
    Option ((List Nat × Nat) × List (List Nat × Nat))
  | [] => none
  | x :: rest =>
      match popMin rest with
      | none => some (x, [])
      | some (m, rest2) =>
          if recLe x m then some (x, rest) else some (m, x :: rest2)

/-- `IndexReader::read` for reader `k`: take its next record. -/
def refillFrom (rem : List (List (List Nat))) (k : Nat) :
    Option (List Nat) × List (List (List Nat)) :=
  match rem.getD k [] with
  | [] => (none, rem)
  | r :: rs => (some r, rem.set k rs)

/-- State of the merge loop: the queue entries `(record, reader)`, the
unread records of each reader, and the "+" and "-" stdout lines. -/
structure MergeState where
  pq : List (List Nat × Nat)
  rem : List (List (List Nat))
  plusLines : List (List Nat)
  minusLines : List (List Nat)
  deriving Repr, DecidableEq

/-- The inner while loop: as long as the queue's least record is
bucket-equal to `top`, pop it as a duplicate and refill from its reader.
The fuel only bounds the iteration count; the caller passes enough for
every record. -/
def mergeDupsLoop : Nat → List Nat → MergeState → MergeState
  | 0, _, st => st
  | fuel + 1, top, st =>
      match popMin st.pq with
      | none => st
      | some ((r, k), pq2) =>
          if recBucketEq r top then
            let rf := refillFrom st.rem k
            mergeDupsLoop fuel top
              { pq := match rf.1 with
                  | some nr => (nr, k) :: pq2
                  | none => pq2
                rem := rf.2
                plusLines := st.plusLines
                minusLines := st.minusLines ++ [r] }
          else st

/-- The outer merge loop: pop the least record as the representative of
its bucket run, collect its bucket-equal duplicates, then refill from the
representative's reader. -/
def mergeMainLoop : Nat → MergeState → MergeState
  | 0, st => st
  | fuel + 1, st =>
      match popMin st.pq with
      | none => st
      | some ((r, k), pq2) =>
          let st1 := mergeDupsLoop fuel r
            { pq := pq2
              rem := st.rem
              plusLines := st.plusLines ++ [r]
              minusLines := st.minusLines }
          let rf := refillFrom st1.rem k
          mergeMainLoop fuel
            { pq := match rf.1 with
                | some nr => (nr, k) :: st1.pq
                | none => st1.pq
              rem := rf.2
              plusLines := st1.plusLines
              minusLines := st1.minusLines }

/-- Result of `merge_index`: the header written by `IndexWriter::open`
(sums of the source headers), the record bytes that reach the output
index body - the empty list, because the `writer.write_raw(...)` call is
commented out in the source - and the stdout lines of the loop. -/
structure MergeResult where
  headerTotal : Nat
  headerActive : Nat
  fileRecords : List (List Nat)
  plusLines : List (List Nat)
  minusLines : List (List Nat)
  deriving Repr, DecidableEq

/-- `merge_index` over the sources of one band. -/
def mergeIndex (sources : List IndexSource) : MergeResult :=
  let pq0 := (sources.zip (List.range sources.length)).filterMap
    (fun p => match p.1.records with
      | [] => none
      | r :: _ => some (r, p.2))
  let rem0 := sources.map (fun s => s.records.drop 1)
  let fuel := (sources.map (fun s => s.records.length)).sum
    + sources.length + 1
  let fin := mergeMainLoop fuel ⟨pq0, rem0, [], []⟩
  ⟨(sources.map IndexSource.numTotalItems).sum,
    (sources.map IndexSource.numActiveItems).sum,
    [], fin.plusLines, fin.minusLines⟩

/-! ## Flag applicator (src/apply.cc) -/

/-- The manifest scan of `doubri-apply`: accumulate the running item
offset `n`, record `(begin, size) = (n, num_items)` at the first manifest
line whose source path equals the target, and fail on a second match. -/
def scanSource (target : String) :
    List (Nat × String) → Nat → Bool → Nat → Nat →
    Except String (Bool × Nat × Nat × Nat)
  | [], n, found, b, s => .ok (found, b, s, n)
  | (numItems, source) :: rest, n, found, b, s =>
      if source = target then
        if found then .error "Possibly a duplicated source"
        else scanSource target rest (n + numItems) true n numItems
      else scanSource target rest (n + numItems) found b s

/-- The streaming filter loop over stdin: print lines whose flag byte is
' ', fail when a line index reaches `size` (input longer than the shard)
and, once stdin is exhausted, when fewer than `size` lines were read. -/
def applyFilter (flags : List Char) (size : Nat) :
    List String → Nat → List String × Except String Unit
  | [], i => ([], if i < size then .error "STDIN is shorter" else .ok ())
  | line :: rest, i =>
      if size ≤ i then ([], .error "STDIN is longer")
      else
        let out := applyFilter flags size rest (i + 1)
        (if flags.getD i '?' = ' ' then line :: out.1 else out.1, out.2)

/-- `doubri-apply`: resolve the target's slice of the flag file from the
manifest, then filter stdin.  The first component is everything written
to stdout, the second the exit status (every error path exits with
code 1). -/
def applyMain (flagBytes : List Char) (manifest : List (Nat × String))
    (target : String) (stdinLines : List String) :
    List String × Except String Unit :=
  match scanSource target manifest 0 false 0 0 with
  | .error e => ([], .error e)
  | .ok (found, b, s, n) =>
      if flagBytes.length ≠ n then
        ([], .error "Inconsistent numbers of items")
      else if found = false then
        ([], .error "The target does not exist in the source")
      else if flagBytes.length < b + s then
        ([], .error "Failed to read the flag bytes")
      else applyFilter (listSlice flagBytes b s) s stdinLines 0

/-! ## Sketcher (src/minhash.cc)

The hash backend (`MurmurHash3_x86_32`, an external collaborator) is the
abstract parameter `h`; the format commits only to `h` being a
deterministic function of `(feature, seed)` into 32-bit values. -/

/-- `ngram`: UTF-8 character n-grams of a string.  The empty string gives
no n-grams; `main` only calls this with texts of at least `n` characters
because shorter ones are replaced by the placeholder first.  (For
`n > length + 1` the C++ loop bound underflows; that case is unreachable
from `main` and is rendered here by the truncating subtraction.) -/
def ngramChars (cs : List Char) (n : Nat) : List (List Char) :=
  if cs.isEmpty then []
  else (List.range (cs.length + 1 - n)).map (fun i => (cs.drop i).take n)

/-- The text used for an input line: the JSON text field when present
and at least `n` UTF-8 characters long, otherwise the placeholder
`std::string(n, '_')` of `n` underscores. -/
def sketchText (n : Nat) (field : Option (List Char)) : List Char :=
  match field with
  | none => List.replicate n '_'
  | some t => if t.length < n then List.replicate n '_' else t

/-- `minhash`: the minimum of `hash(feature, seed)` over the feature
strings, starting from `0xFFFFFFFF`. -/
def minhashVal (h : List Char → Nat → Nat) (strs : List (List Char))
    (seed : Nat) : Nat :=
  strs.foldl (fun m s => if h s seed < m then h s seed else m) 0xFFFFFFFF

/-- The flat row of `(end - begin) * H` MinHash values computed for one
input line and handed to `MinHashWriter::put`: band `i` uses seeds
`i*H .. i*H + H - 1`. -/
def minhashRow (h : List Char → Nat → Nat) (hN hB hE n : Nat)
    (field : Option (List Char)) : List Nat :=
  (List.range (hE - hB)).flatMap (fun r =>
    (List.range hN).map (fun j =>
      minhashVal h (ngramChars (sketchText n field) n) ((hB + r) * hN + j)))

/-! Facts about the manifest scan and the filter loop. -/

/-- Number of manifest lines whose source path equals the target. -/
def countMatches (manifest : List (Nat × String)) (target : String) : Nat :=
  (manifest.filter (fun p => p.2 == target)).length

/-- Offset and size of the target's slice per the manifest: the sum of
the item counts of all lines preceding the first match, and the item
count of that line. -/
def matchOffset (target : String) : List (Nat × String) → Option (Nat × Nat)
  | [] => none
  | (numItems, source) :: rest =>
      if source = target then some (0, numItems)
      else (matchOffset target rest).map (fun p => (numItems + p.1, p.2))

/-- Total item count of the manifest. -/
def manifestTotal (manifest : List (Nat × String)) : Nat :=
  (manifest.map Prod.fst).sum

theorem scanSource_no_match (target : String) (ms : List (Nat × String))
    (h : countMatches ms target = 0) :
    ∀ (n : Nat) (found : Bool) (b s : Nat),
    scanSource target ms n found b s = .ok (found, b, s, n + manifestTotal ms) := by
  induction ms with
  | nil => intro n found b s; simp [scanSource, manifestTotal]
  | cons p rest ih =>
      intro n found b s
      rcases p with ⟨numItems, source⟩
      have hne : ¬ source = target := by
        intro hc
        rw [countMatches, List.filter_cons, if_pos (by simpa using hc)] at h
        simp at h
      have hrest : countMatches rest target = 0 := by
        rw [countMatches, List.filter_cons, if_neg (by simpa using hne)] at h
        exact h
      rw [scanSource, if_neg hne, ih hrest]
      simp [manifestTotal]
      omega

theorem scanSource_found_match (target : String) (ms : List (Nat × String))
    (h : 1 ≤ countMatches ms target) :
    ∀ (n b s : Nat),
    scanSource target ms n true b s = .error "Possibly a duplicated source" := by
  induction ms with
  | nil => simp [countMatches] at h
  | cons p rest ih =>
      intro n b s
      rcases p with ⟨numItems, source⟩
      by_cases hs : source = target
      · rw [scanSource, if_pos hs]
        rfl
      · have hrest : 1 ≤ countMatches rest target := by
          rw [countMatches, List.filter_cons, if_neg (by simpa using hs)] at h
          exact h
        rw [scanSource, if_neg hs, ih hrest]

theorem scanSource_dup (target : String) (ms : List (Nat × String))
    (h : 2 ≤ countMatches ms target) :
    ∀ (n b s : Nat),
    scanSource target ms n false b s = .error "Possibly a duplicated source" := by
  induction ms with
  | nil => simp [countMatches] at h
  | cons p rest ih =>
      intro n b s
      rcases p with ⟨numItems, source⟩
      by_cases hs : source = target
      · have hrest : 1 ≤ countMatches rest target := by
          rw [countMatches]
          rw [countMatches, List.filter_cons, if_pos (by simpa using hs)] at h
          simp only [List.length_cons] at h
          omega
        rw [scanSource, if_pos hs, if_neg (by simp)]
        exact scanSource_found_match target rest hrest _ _ _
      · have hrest : 2 ≤ countMatches rest target := by
          rw [countMatches, List.filter_cons, if_neg (by simpa using hs)] at h
          exact h
        rw [scanSource, if_neg hs, ih hrest]

theorem matchOffset_isSome (target : String) (ms : List (Nat × String))
    (h : 1 ≤ countMatches ms target) :
    ∃ off sz, matchOffset target ms = some (off, sz) := by
  induction ms with
  | nil => simp [countMatches] at h
  | cons p rest ih =>
      rcases p with ⟨numItems, source⟩
      by_cases hs : source = target
      · exact ⟨0, numItems, by rw [matchOffset, if_pos hs]⟩
      · have hrest : 1 ≤ countMatches rest target := by
          rw [countMatches, List.filter_cons, if_neg (by simpa using hs)] at h
          exact h
        rcases ih hrest with ⟨off, sz, hoff⟩
        exact ⟨numItems + off, sz, by rw [matchOffset, if_neg hs, hoff]; rfl⟩

theorem matchOffset_le_total (target : String) (ms : List (Nat × String)) :
    ∀ off sz, matchOffset target ms = some (off, sz) →
    off + sz ≤ manifestTotal ms := by
  induction ms with
  | nil => intro off sz h; simp [matchOffset] at h
  | cons p rest ih =>
      intro off sz h
      rcases p with ⟨numItems, source⟩
      rw [matchOffset] at h
      split at h
      · rcases Option.some.inj h with h2
        simp only [Prod.mk.injEq] at h2
        rw [← h2.1, ← h2.2]
        simp only [manifestTotal, List.map_cons, List.sum_cons]
        omega
      · rcases hrest : matchOffset target rest with _ | ⟨o2, s2⟩ <;>
          rw [hrest] at h
        · simp at h
        · have h2 := Option.some.inj
            (show some (numItems + o2, s2) = some (off, sz) from h)
          simp only [Prod.mk.injEq] at h2
          rw [← h2.1, ← h2.2]
          have hle := ih o2 s2 hrest
          simp only [manifestTotal, List.map_cons, List.sum_cons]
          simp only [manifestTotal] at hle
          omega

theorem scanSource_single (target : String) (ms : List (Nat × String))
    (hc : countMatches ms target = 1) :
    ∀ off sz, matchOffset target ms = some (off, sz) →
    ∀ n, scanSource target ms n false 0 0
      = .ok (true, n + off, sz, n + manifestTotal ms) := by
  induction ms with
  | nil => simp [countMatches] at hc
  | cons p rest ih =>
      intro off sz hoff n
      rcases p with ⟨numItems, source⟩
      by_cases hs : source = target
      · have hrest : countMatches rest target = 0 := by
          rw [countMatches]
          rw [countMatches, List.filter_cons, if_pos (by simpa using hs)] at hc
          simp only [List.length_cons] at hc
          omega
        rw [matchOffset, if_pos hs] at hoff
        rcases Option.some.inj hoff with h
        rw [scanSource, if_pos hs, if_neg (by simp),
          scanSource_no_match target rest hrest]
        simp only [Prod.mk.injEq] at h
        rw [← h.1, ← h.2]
        simp [manifestTotal]
        omega
      · have hrest : countMatches rest target = 1 := by
          rw [countMatches, List.filter_cons, if_neg (by simpa using hs)] at hc
          exact hc
        rw [matchOffset, if_neg hs] at hoff
        rcases hro : matchOffset target rest with _ | ⟨o2, s2⟩ <;>
          rw [hro] at hoff
        · simp at hoff
        · have h := Option.some.inj
            (show some (numItems + o2, s2) = some (off, sz) from hoff)
          simp only [Prod.mk.injEq] at h
          rw [scanSource, if_neg hs, ih hrest o2 s2 hro (n + numItems)]
          rw [← h.1, ← h.2]
          simp [manifestTotal]
          omega

theorem scanSource_ok_true_bound (target : String) (ms : List (Nat × String))
    (b s n : Nat)
    (h : scanSource target ms 0 false 0 0 = .ok (true, b, s, n)) :
    b + s ≤ n := by
  rcases hc : countMatches ms target with _ | _ | k
  · rw [scanSource_no_match target ms hc 0 false 0 0] at h
    simp at h
  · rcases matchOffset_isSome target ms (by omega) with ⟨off, sz, hoff⟩
    rw [scanSource_single target ms hc off sz hoff 0] at h
    simp only [Except.ok.injEq, Prod.mk.injEq] at h
    have := matchOffset_le_total target ms off sz hoff
    omega
  · rw [scanSource_dup target ms (by omega) 0 0 0] at h
    simp at h

theorem applyFilter_complete (flags : List Char) (size : Nat)
    (hflags : flags.length = size) :
    ∀ (ls : List String) (i : Nat), i + ls.length = size →
    applyFilter flags size ls i
      = (((ls.zip (flags.drop i)).filter (fun p => p.2 == ' ')).map Prod.fst,
         .ok ()) := by
  intro ls
  induction ls with
  | nil =>
      intro i hi
      simp only [List.length_nil, Nat.add_zero] at hi
      rw [applyFilter, if_neg (by omega)]
      simp
  | cons line rest ih =>
      intro i hi
      simp only [List.length_cons] at hi
      have hilt : i < size := by omega
      have hiflags : i < flags.length := by omega
      rw [applyFilter, if_neg (by omega)]
      have hdrop : flags.drop i = flags[i] :: flags.drop (i + 1) :=
        List.drop_eq_getElem_cons hiflags
      have hgetD : flags.getD i '?' = flags[i] := by
        rw [List.getD_eq_getElem?_getD, List.getElem?_eq_getElem hiflags]
        rfl
      rw [ih (i + 1) (by omega), hdrop]
      simp only [List.zip_cons_cons, List.filter_cons]
      by_cases hsp : flags[i] = ' '
      · rw [if_pos (by rw [hgetD]; exact hsp)]
        rw [if_pos (by simpa using hsp)]
        simp
      · rw [if_neg (by rw [hgetD]; exact hsp)]
        rw [if_neg (by simpa using hsp)]

theorem applyFilter_error (flags : List Char) (size : Nat) :
    ∀ (ls : List String) (i : Nat), i ≤ size → i + ls.length ≠ size →
    ∃ e, (applyFilter flags size ls i).2 = .error e := by
  intro ls
  induction ls with
  | nil =>
      intro i hle hne
      simp only [List.length_nil, Nat.add_zero] at hne
      rw [applyFilter]
      exact ⟨"STDIN is shorter", by rw [if_pos (by omega)]⟩
  | cons line rest ih =>
      intro i hle hne
      by_cases hfull : size ≤ i
      · rw [applyFilter, if_pos hfull]
        exact ⟨"STDIN is longer", rfl⟩
      · rw [applyFilter, if_neg hfull]
        simp only [List.length_cons] at hne
        exact ih (i + 1) (by omega) (by omega)

theorem getD_mem_poly {α : Type} {l : List α} {i : Nat} (d : α)
    (h : i < l.length) : l.getD i d ∈ l := by
  rw [List.getD_eq_getElem?_getD, List.getElem?_eq_getElem h]
  exact List.getElem_mem h

theorem applyMain_eq (flagBytes : List Char) (manifest : List (Nat × String))
    (target : String) (stdinLines : List String) (found : Bool) (b s n : Nat)
    (h : scanSource target manifest 0 false 0 0 = .ok (found, b, s, n)) :
    applyMain flagBytes manifest target stdinLines
      = if flagBytes.length ≠ n then
          ([], .error "Inconsistent numbers of items")
        else if found = false then
          ([], .error "The target does not exist in the source")
        else if flagBytes.length < b + s then
          ([], .error "Failed to read the flag bytes")
        else applyFilter (listSlice flagBytes b s) s stdinLines 0 := by
  rw [applyMain, h]

theorem applyMain_err (flagBytes : List Char) (manifest : List (Nat × String))
    (target : String) (stdinLines : List String) (e : String)
    (h : scanSource target manifest 0 false 0 0 = .error e) :
    applyMain flagBytes manifest target stdinLines = ([], .error e) := by
  rw [applyMain, h]

/-! # Claims -/

/-- Claim C1 (evidence of the code bug).  The writer lays the file out in
sector-blocked bucket-major order, but the read loop of
`MinHashLSH::deduplicate_bucket` addresses each item's bucket at the
item-major offset `32 + bytes_per_item * j + offset_bucket`.  Already for
a two-item shard with two bands (H = 1, rows `[[1,2],[3,4]]`), the band-0
load fills item 1's slot with item 0's band-1 bucket (value 2) instead of
the band-0 bucket that the writer stored for item 1 (value 3), so the
per-band load does not realize the `read_bucket_column` contract. -/
theorem C1_dedup_load_mismatch :
    mkMinHashFile 1 0 2 [[1, 2], [3, 4]] = some c1file
    ∧ dedupShardLoad c1file 0 = beBytes 8 1 ++ beBytes 8 2
    ∧ readBucketArray c1file 0 = beBytes 8 1 ++ beBytes 8 3
    ∧ dedupShardLoad c1file 0 ≠ readBucketArray c1file 0 := by decide

/-- A record with bucket byte `7` and `(g, i) = (1, 5)`. -/
def c2recA : List Nat := 7 :: beBytes 8 (1 * 2 ^ 48 + 5)

/-- A record with bucket byte `7` and `(g, i) = (0, 3)`. -/
def c2recB : List Nat := 7 :: beBytes 8 3

/-- Claim C2 (evidence of the code bug).  Merging two single-record group
indices that carry the same bucket under different `(g, i)`: the loop
pops the record with the lower `(g, i)` as the representative (the "+"
stdout line) and detects the other as a cross-group duplicate, but the
output index file receives no records at all (`writer.write_raw` is
commented out) and its header keeps `num_active_items = 2`, the sum of
the source headers, instead of the emitted count 1. -/
theorem C2_merge_output_empty :
    mergeIndex [⟨1, 1, [c2recA]⟩, ⟨1, 1, [c2recB]⟩]
      = ⟨2, 2, [], [c2recB], [c2recA]⟩ := by decide

/-- Claim C3 (amended).  For every sequence of `put(row)` calls with
`N < 2^32 - 1` (the writer's close check refuses already `N = 2^32 - 1`)
followed by `close()`, and every band `b` in `[begin, end)`, reading the
bucket column of band `b` from the resulting file yields exactly the
concatenation, over the items in order, of the big-endian byte encodings
of the `H` hash values that each row supplied for band `b`. -/
theorem C3_roundtrip (hN hB hE b : Nat) (rows : List (List Nat))
    (hcount : rows.length < 0xFFFFFFFF)
    (hrow : ∀ row ∈ rows, row.length = (hE - hB) * hN)
    (hb1 : hB ≤ b) (hb2 : b < hE) :
    ∃ f, mkMinHashFile hN hB hE rows = some f
      ∧ readBucketArray f b = bandColBytes hN (b - hB) rows := by
  refine ⟨_, mkMinHashFile_eq hN hB hE rows hcount, ?_⟩
  show readRaw hN (hE - hB) rows.length (fileBodyBytes hN (hE - hB) rows)
      (b - hB) = bandColBytes hN (b - hB) rows
  exact readRaw_fileBody hN (hE - hB) (b - hB) (by omega) rows hrow

/-- A three-item, two-band shard used to instantiate the round trip. -/
def c3rows : List (List Nat) := [[10, 20], [30, 40], [50, 60]]

/-- Witness for C3_roundtrip at `H = 1`, bands `[0, 2)`, band 1. -/
theorem C3_roundtrip_witness :
    (c3rows.length < 0xFFFFFFFF
      ∧ (∀ row ∈ c3rows, row.length = (2 - 0) * 1) ∧ 0 ≤ 1 ∧ 1 < 2)
    ∧ ∃ f, mkMinHashFile 1 0 2 c3rows = some f
        ∧ readBucketArray f 1 = bandColBytes 1 (1 - 0) c3rows :=
  ⟨⟨by decide, by decide, by decide, by decide⟩,
    C3_roundtrip 1 0 2 1 c3rows (by decide) (by decide) (by decide) (by decide)⟩

/-- Counterexample to claim C3 as stated: the claim allows every
`N < 2^32`, but at `N = 2^32 - 1` the writer's `close()` raises a range
error (`0xFFFFFFFF <= m_num_items`) and no finalized file exists to read
back. -/
theorem C3_range_counterexample :
    mkMinHashFile 1 0 1 (List.replicate 4294967295 [0]) = none :=
  mkMinHashFile_none 1 0 1 _ (by rw [List.length_replicate])

/-- Claim C9 (amended).  `IndexWriter::write_item` raises a range error
exactly when the group id exceeds 65535 or the item index is at least
2^48, and for in-range arguments emits the record; `MinHashWriter`'s
close raises a range error exactly when the number of items put is at
least `2^32 - 1` (the check is `0xFFFFFFFF <= m_num_items`, so the count
`2^32 - 1` is already refused), and otherwise the file is finalized. -/
theorem C9_range_errors :
    (∀ (g i : Nat) (bucket : List Nat),
      (∃ bs, writeItem g i bucket = Except.ok bs) ↔ (g ≤ 0xFFFF ∧ i < 2 ^ 48))
    ∧ (∀ (hN hB hE : Nat) (rows : List (List Nat)),
      (∃ f, mkMinHashFile hN hB hE rows = some f)
        ↔ rows.length < 0xFFFFFFFF) := by
  constructor
  · intro g i bucket
    constructor
    · rintro ⟨bs, hbs⟩
      rw [writeItem] at hbs
      split at hbs <;> rename_i h1
      · exact absurd hbs (by simp)
      · split at hbs <;> rename_i h2
        · exact absurd hbs (by simp)
        · norm_num at h1 h2
          norm_num
          omega
    · rintro ⟨hg, hi⟩
      exact ⟨_, writeItem_ok bucket hg hi⟩
  · intro hN hB hE rows
    constructor
    · rintro ⟨f, hf⟩
      by_contra hc
      rw [mkMinHashFile_none hN hB hE rows (by omega)] at hf
      simp at hf
    · intro h
      exact ⟨_, mkMinHashFile_eq hN hB hE rows h⟩

/-- Witness for C9_range_errors: an in-range write succeeds and an
in-range close succeeds. -/
theorem C9_range_errors_witness :
    (∃ bs, writeItem 3 5 [1] = Except.ok bs)
    ∧ (∃ f, mkMinHashFile 1 0 1 [[4]] = some f) :=
  ⟨(C9_range_errors.1 3 5 [1]).mpr ⟨by decide, by decide⟩,
    (C9_range_errors.2 1 0 1 [[4]]).mpr (by decide)⟩

/-- Counterexample to claim C9 as stated: the claim says close fails only
when the item count exceeds `2^32`, but the code already refuses the
count `2^32 - 1 = 4294967295`. -/
theorem C9_close_boundary_counterexample :
    (mkMinHashFile 1 0 1 (List.replicate 4294967295 [5])).isSome = false
    ∧ ¬ ((4294967295 : Nat) > 2 ^ 32) := by
  refine ⟨?_, by norm_num⟩
  rw [mkMinHashFile_none 1 0 1 _ (by rw [List.length_replicate])]
  rfl

/-- Claim C4 (amended).  The index write loop omits exactly the items
whose flag after the current band's sweep is 'd'; since the sweep marks
'd' unconditionally, an item whose flag is 'D' at the start of the band
is still written whenever no lower-indexed item shares its bucket in the
current band. -/
theorem C4_D_item_in_index (bks : List (List Nat)) (n g : Nat)
    (fs : List Char) (i : Nat)
    (hg : g ≤ 0xFFFF) (hn : n ≤ 2 ^ 48) (hi : i < n)
    (hD : fs.getD i ' ' = 'D')
    (hfirst : ∀ j, j < i → bucketOf bks j ≠ bucketOf bks i) :
    ∃ rs, bandRecords bks n g fs = .ok rs
      ∧ (bucketOf bks i ++ beBytes 8 (g * 2 ^ 48 + i)) ∈ rs := by
  have hsurv : i ∈ (sortItems bks n).filter
      (fun i => !((bandMark bks n fs).getD i ' ' == 'd')) := by
    rw [List.mem_filter]
    refine ⟨(sortItems_mem bks n i).mpr hi, ?_⟩
    rw [bandMark, markDups_unmarked bks _ fs i (sortItems_pairwise_keyLt bks n)
      (fun j _ hb hlt => hfirst j hlt hb), hD]
    decide
  have hok := writeIndexItems_ok g bks
    ((sortItems bks n).filter
      (fun i => !((bandMark bks n fs).getD i ' ' == 'd'))) hg
    (fun x hx => by
      have := (sortItems_mem bks n x).mp (List.mem_filter.mp hx).1
      omega)
  exact ⟨_, hok, List.mem_map_of_mem _ hsurv⟩

/-- Witness for C4_D_item_in_index: two items whose band buckets differ,
item 1 entering the band with flag 'D'; its record is emitted. -/
theorem C4_D_item_in_index_witness :
    ((0 : Nat) ≤ 0xFFFF ∧ (2 : Nat) ≤ 2 ^ 48 ∧ (1 : Nat) < 2
      ∧ ([' ', 'D'] : List Char).getD 1 ' ' = 'D'
      ∧ ∀ j, j < 1 → bucketOf [[1], [2]] j ≠ bucketOf [[1], [2]] 1)
    ∧ ∃ rs, bandRecords [[1], [2]] 2 0 [' ', 'D'] = .ok rs
        ∧ (bucketOf [[1], [2]] 1 ++ beBytes 8 (0 * 2 ^ 48 + 1)) ∈ rs :=
  ⟨⟨by decide, by decide, by decide, by decide, by decide⟩,
    C4_D_item_in_index [[1], [2]] 2 0 [' ', 'D'] 1 (by decide) (by decide)
      (by decide) (by decide) (by decide)⟩

/-- Counterexample to claim C4 as stated: band 0 on two colliding buckets
leaves flags [' ', 'D']; in band 1 the buckets [1] and [2] are distinct,
the sweep marks nothing, and the index written for band 1 contains a
record for item 1 even though its flag is 'D' at the band's start -- the
write condition is `flags[i] != 'd'`, not `== ' '`. -/
theorem C4_counterexample :
    bandStep [[5], [5]] 2 [' ', ' '] = [' ', 'D']
    ∧ bandRecords [[1], [2]] 2 0 [' ', 'D']
        = .ok [1 :: beBytes 8 0, 2 :: beBytes 8 1]
    ∧ (2 :: beBytes 8 1) ∈ [1 :: beBytes 8 0, 2 :: beBytes 8 1] := by decide

/-- Claim C5 (amended).  When the text field is absent or shorter than
`n` characters, the sketcher hashes the placeholder string of `n`
underscores: the feature set is the one-element set containing that
placeholder (not empty), and every MinHash value of the row equals the
hash of the placeholder under the band's seed (not the maximum
representable hash value 0xFFFFFFFF). -/
theorem C5_placeholder_row (h : List Char → Nat → Nat) (hN hB hE n : Nat)
    (field : Option (List Char))
    (hh : ∀ s seed, h s seed ≤ 0xFFFFFFFF) (hn : 1 ≤ n)
    (habsent : field = none ∨ ∃ t, field = some t ∧ t.length < n) :
    ngramChars (sketchText n field) n = [List.replicate n '_']
    ∧ minhashRow h hN hB hE n field
        = (List.range (hE - hB)).flatMap (fun r =>
            (List.range hN).map (fun j =>
              h (List.replicate n '_') ((hB + r) * hN + j))) := by
  obtain ⟨m, rfl⟩ : ∃ m, n = m + 1 := ⟨n - 1, by omega⟩
  have htext : sketchText (m + 1) field = List.replicate (m + 1) '_' := by
    rcases habsent with rfl | ⟨t, rfl, ht⟩
    · rfl
    · rw [sketchText, if_pos ht]
  have hfeat : ngramChars (sketchText (m + 1) field) (m + 1)
      = [List.replicate (m + 1) '_'] := by
    rw [htext, ngramChars, if_neg (by simp [List.replicate_succ])]
    have hlen : (List.replicate (m + 1) '_').length + 1 - (m + 1) = 1 := by
      rw [List.length_replicate]
      omega
    rw [hlen, show List.range 1 = [0] from rfl]
    simp only [List.map_cons, List.map_nil, List.drop_zero]
    rw [List.take_replicate, Nat.min_self]
  have hval : ∀ seed,
      minhashVal h [List.replicate (m + 1) '_'] seed
        = h (List.replicate (m + 1) '_') seed := by
    intro seed
    rw [minhashVal]
    simp only [List.foldl_cons, List.foldl_nil]
    split <;> rename_i hc
    · rfl
    · have := hh (List.replicate (m + 1) '_') seed
      omega
  refine ⟨hfeat, ?_⟩
  rw [minhashRow, hfeat]
  simp only [hval]

/-- Witness for C5_placeholder_row: an absent field with `n = 2`, one
band, one hash per band, and a concrete bounded hash function. -/
theorem C5_placeholder_row_witness :
    ((∀ (s : List Char) (seed : Nat), (s.length + seed) % 7 ≤ 0xFFFFFFFF)
      ∧ (1 : Nat) ≤ 2
      ∧ ((none : Option (List Char)) = none
          ∨ ∃ t, (none : Option (List Char)) = some t ∧ t.length < 2))
    ∧ ngramChars (sketchText 2 none) 2 = [List.replicate 2 '_']
    ∧ minhashRow (fun s seed => (s.length + seed) % 7) 1 0 1 2 none
        = (List.range (1 - 0)).flatMap (fun r =>
            (List.range 1).map (fun j =>
              ((List.replicate 2 '_').length + ((0 + r) * 1 + j)) % 7)) :=
  ⟨⟨fun s seed => by
      have := Nat.mod_lt (s.length + seed) (show 0 < 7 by decide)
      omega,
    by decide, Or.inl rfl⟩,
    C5_placeholder_row (fun s seed => (s.length + seed) % 7) 1 0 1 2 none
      (fun s seed => by
        show (s.length + seed) % 7 ≤ 0xFFFFFFFF
        have := Nat.mod_lt (s.length + seed) (show 0 < 7 by decide)
        omega)
      (by decide) (Or.inl rfl)⟩

/-- Counterexample to claim C5 as stated: for an absent text field with
`n = 5` the feature set is not empty -- it contains the placeholder
string of five underscores -- and a MinHash value is the hash of that
placeholder, not necessarily 0xFFFFFFFF (here a hash function returning
0 on every input yields 0). -/
theorem C5_counterexample :
    ngramChars (sketchText 5 none) 5 = [List.replicate 5 '_']
    ∧ ngramChars (sketchText 5 none) 5 ≠ []
    ∧ minhashVal (fun _ _ => 0) (ngramChars (sketchText 5 none) 5) 0 = 0
    ∧ (0 : Nat) ≠ 0xFFFFFFFF := by decide

/-- Claim C7.  The records of the index file the deduper writes for one
band are strictly increasing under lexicographic order of the full
`bytes_per_bucket + 8` byte sequences: survivors are emitted in sort
order, distinct buckets of equal length compare by their first differing
byte, and two byte-equal buckets cannot both survive because the sweep
marks every non-first member of a bucket run with 'd'. -/
theorem C7_index_strictly_sorted (bks : List (List Nat)) (n g bpb : Nat)
    (fs : List Char)
    (hg : g ≤ 0xFFFF) (hn : n ≤ 2 ^ 48) (hbks : n ≤ bks.length)
    (hbpb : ∀ bk ∈ bks, bk.length = bpb) :
    ∃ rs, bandRecords bks n g fs = .ok rs
      ∧ List.Pairwise (List.Lex (· < ·)) rs := by
  have hok := writeIndexItems_ok g bks
    ((sortItems bks n).filter
      (fun i => !((bandMark bks n fs).getD i ' ' == 'd'))) hg
    (fun x hx => by
      have := (sortItems_mem bks n x).mp (List.mem_filter.mp hx).1
      omega)
  refine ⟨_, hok, ?_⟩
  rw [List.pairwise_map]
  have hpair : List.Pairwise (keyLt bks)
      ((sortItems bks n).filter
        (fun i => !((bandMark bks n fs).getD i ' ' == 'd'))) :=
    (sortItems_pairwise_keyLt bks n).filter _
  refine hpair.imp_of_mem ?_
  intro a b ha hb hk
  rcases hk with hlex | ⟨heq, hlt⟩
  · refine lex_append_of_eqlen _ _ ?_ hlex
    have haN : a < n := (sortItems_mem bks n a).mp (List.mem_filter.mp ha).1
    have hbN : b < n := (sortItems_mem bks n b).mp (List.mem_filter.mp hb).1
    have h1 : bucketOf bks a ∈ bks := getD_mem_poly [] (by omega)
    have h2 : bucketOf bks b ∈ bks := getD_mem_poly [] (by omega)
    rw [hbpb _ h1, hbpb _ h2]
  · have hbN : b < n := (sortItems_mem bks n b).mp (List.mem_filter.mp hb).1
    have hbound : g * 2 ^ 48 + b < 256 ^ 8 := by
      have h64 : (256 : Nat) ^ 8 = 2 ^ 64 := by norm_num
      rw [h64]
      omega
    rw [heq]
    exact lex_append_same _ (beBytes_lex_of_lt (by omega) hbound)

/-- Witness for C7_index_strictly_sorted: three items, the first two with
byte-equal buckets; the emitted records are strictly increasing. -/
theorem C7_index_strictly_sorted_witness :
    ((0 : Nat) ≤ 0xFFFF ∧ (3 : Nat) ≤ 2 ^ 48
      ∧ (3 : Nat) ≤ ([[0], [0], [1]] : List (List Nat)).length
      ∧ ∀ bk ∈ ([[0], [0], [1]] : List (List Nat)), bk.length = 1)
    ∧ ∃ rs, bandRecords [[0], [0], [1]] 3 0 [' ', ' ', ' '] = .ok rs
        ∧ List.Pairwise (List.Lex (· < ·)) rs :=
  ⟨⟨by decide, by decide, by decide, by decide⟩,
    C7_index_strictly_sorted [[0], [0], [1]] 3 0 1 [' ', ' ', ' ']
      (by decide) (by decide) (by decide) (by decide)⟩

/-- Claim C8 (amended).  Within one band the flag dynamics are monotone
upward except at one point the claimed state machine forbids: the sweep
marks every non-first member of a bucket run with 'd' unconditionally, so
a 'D' flag can be overwritten with 'd' mid-band (and is restored to 'D'
only by the end-of-band promotion).  At band granularity 'D' is terminal:
an item entering a band as 'D' leaves every later band boundary as 'D',
never ' '. -/
theorem C8_flag_transitions (i : Nat) :
    (∀ (bks : List (List Nat)) (n : Nat) (fs : List Char),
      fs.getD i ' ' = 'D' →
      (bandMark bks n fs).getD i ' ' = 'd'
        ∨ (bandMark bks n fs).getD i ' ' = 'D')
    ∧ (∀ (n : Nat) (bandsBks : List (List (List Nat))) (fs : List Char),
      fs.getD i ' ' = 'D' → (runBands n bandsBks fs).getD i ' ' = 'D') := by
  constructor
  · intro bks n fs h
    rw [bandMark]
    rcases markDups_getD_or bks (sortItems bks n) fs i with h2 | h2
    · exact Or.inl h2
    · rw [h2, h]
      exact Or.inr rfl
  · intro n bandsBks fs h
    exact runBands_D n bandsBks fs i h

/-- Witness for C8_flag_transitions: an item flagged 'D' stays 'D'
through two further bands. -/
theorem C8_flag_transitions_witness :
    ([' ', 'D'] : List Char).getD 1 ' ' = 'D'
    ∧ (runBands 2 [[[7], [8]], [[9], [9]]] [' ', 'D']).getD 1 ' ' = 'D' :=
  ⟨by decide,
    (C8_flag_transitions 1).2 2 [[[7], [8]], [[9], [9]]] [' ', 'D'] (by decide)⟩

/-- Counterexample to claim C8 as stated: after band 0 promotes item 1 to
'D', band 1 (where the buckets collide again) marks it 'd' mid-band --
the transition 'D' to 'd' is not part of the claimed state machine, in
which 'D' is terminal. -/
theorem C8_counterexample :
    bandStep [[5], [5]] 2 [' ', ' '] = [' ', 'D']
    ∧ (bandMark [[9], [9]] 2 [' ', 'D']).getD 1 ' ' = 'd'
    ∧ 'd' ≠ 'D' := by decide

/-- Claim C6.  For an accepted flag file, manifest, and target (the scan
resolved a unique slice [b, b+s) and the flag file's length matches the
manifest total), the program writes to stdout exactly those stdin lines
whose flag byte within the slice is ' ', in input order, and exits with
an error whenever the number of stdin lines differs from `s` in either
direction. -/
theorem C6_apply_filter (flagBytes : List Char)
    (manifest : List (Nat × String)) (target : String)
    (stdinLines : List String) (b s n : Nat)
    (hscan : scanSource target manifest 0 false 0 0 = .ok (true, b, s, n))
    (hlen : flagBytes.length = n) :
    (stdinLines.length = s →
      applyMain flagBytes manifest target stdinLines
        = (((stdinLines.zip (listSlice flagBytes b s)).filter
              (fun p => p.2 == ' ')).map Prod.fst, .ok ()))
    ∧ (stdinLines.length ≠ s →
      ∃ e, (applyMain flagBytes manifest target stdinLines).2 = .error e) := by
  have hbound : b + s ≤ n := scanSource_ok_true_bound target manifest b s n hscan
  have hslice : (listSlice flagBytes b s).length = s := by
    rw [listSlice, List.length_take, List.length_drop]
    omega
  have hmain : applyMain flagBytes manifest target stdinLines
      = applyFilter (listSlice flagBytes b s) s stdinLines 0 := by
    rw [applyMain_eq flagBytes manifest target stdinLines true b s n hscan,
      if_neg (by omega), if_neg (by simp), if_neg (by omega)]
  constructor
  · intro hsz
    rw [hmain,
      applyFilter_complete (listSlice flagBytes b s) s hslice stdinLines 0
        (by omega)]
    simp
  · intro hsz
    rw [hmain]
    exact applyFilter_error (listSlice flagBytes b s) s stdinLines 0
      (Nat.zero_le s) (by omega)

/-- Witness for C6_apply_filter: the applicator scenario of the spec --
flag file " D DD " over a single six-item source, six stdin lines; the
output is lines 0, 2 and 5. -/
theorem C6_apply_filter_witness :
    (scanSource "t" [(6, "t")] 0 false 0 0 = .ok (true, 0, 6, 6)
      ∧ ([' ', 'D', ' ', 'D', 'D', ' '] : List Char).length = 6)
    ∧ applyMain [' ', 'D', ' ', 'D', 'D', ' '] [(6, "t")] "t"
        ["l0", "l1", "l2", "l3", "l4", "l5"]
      = (["l0", "l2", "l5"], .ok ()) := by
  refine ⟨⟨by decide, by decide⟩, ?_⟩
  rw [(C6_apply_filter [' ', 'D', ' ', 'D', 'D', ' '] [(6, "t")] "t"
      ["l0", "l1", "l2", "l3", "l4", "l5"] 0 6 6 (by decide) (by decide)).1
      (by decide)]
  decide

/-- Claim C10.  The manifest scan of `doubri-apply`: more than one
matching manifest line is an error before any stdin line is filtered; no
matching line, or a flag-file length different from the manifest's item
total, is also an error; and with exactly one match the target's slice
starts at the sum of the item counts of the preceding lines and has the
matching line's item count as its length. -/
theorem C10_manifest_resolution (flagBytes : List Char)
    (manifest : List (Nat × String)) (target : String)
    (stdinLines : List String) :
    (2 ≤ countMatches manifest target →
      applyMain flagBytes manifest target stdinLines
        = ([], .error "Possibly a duplicated source"))
    ∧ (countMatches manifest target = 0
        ∨ flagBytes.length ≠ manifestTotal manifest →
      ∃ e, (applyMain flagBytes manifest target stdinLines).2 = .error e)
    ∧ (∀ off sz, countMatches manifest target = 1 →
        matchOffset target manifest = some (off, sz) →
        scanSource target manifest 0 false 0 0
          = .ok (true, off, sz, manifestTotal manifest)) := by
  refine ⟨?_, ?_, ?_⟩
  · intro h2
    exact applyMain_err flagBytes manifest target stdinLines _
      (scanSource_dup target manifest h2 0 0 0)
  · intro hcase
    rcases hc : countMatches manifest target with _ | _ | k
    · have h := scanSource_no_match target manifest hc 0 false 0 0
      rw [applyMain_eq flagBytes manifest target stdinLines false 0 0
        (0 + manifestTotal manifest) h]
      by_cases hl : flagBytes.length = 0 + manifestTotal manifest
      · rw [if_neg (by omega), if_pos rfl]
        exact ⟨_, rfl⟩
      · rw [if_pos (by omega)]
        exact ⟨_, rfl⟩
    · rcases hcase with h0 | hne
      · rw [hc] at h0
        exact absurd h0 (by decide)
      · rcases matchOffset_isSome target manifest (by omega) with ⟨off, sz, hoff⟩
        have hscan := scanSource_single target manifest hc off sz hoff 0
        rw [applyMain_eq flagBytes manifest target stdinLines true (0 + off) sz
          (0 + manifestTotal manifest) hscan]
        rw [if_pos (by omega)]
        exact ⟨_, rfl⟩
    · have h := scanSource_dup target manifest (by omega) 0 0 0
      rw [applyMain_err flagBytes manifest target stdinLines _ h]
      exact ⟨_, rfl⟩
  · intro off sz h1 hoff
    have h := scanSource_single target manifest h1 off sz hoff 0
    simpa using h

/-- Witness for C10_manifest_resolution: a manifest naming the target
twice makes the applicator fail before filtering anything. -/
theorem C10_manifest_resolution_witness :
    2 ≤ countMatches [(1, "t"), (2, "t")] "t"
    ∧ applyMain [' '] [(1, "t"), (2, "t")] "t" []
        = ([], .error "Possibly a duplicated source") :=
  ⟨by decide,
    (C10_manifest_resolution [' '] [(1, "t"), (2, "t")] "t" []).1 (by decide)⟩

end Doubri
